import Mathlib

/-!
Verification of the AllNovel Mangayomi extension (`allnovel.js`).

The repository ships two live implementations side by side:
* a class-based variant (`DefaultExtension` with `getPopular`, `getDetail`,
  `getChapterContent`, `cleanHtmlContent`, ...), and
* a runtime variant of top-level functions (`getPopular`, `getDetail`,
  `getPageList`, `mapStatusToInt`, `fixImageUrl`, `parseListFromDoc`, ...).

JavaScript strings are shallowly embedded as `List Char` (`Str`), so that
`trim`, `toLowerCase`, `includes`, `startsWith` are ordinary list functions.
JavaScript `null`/`undefined` is `Option.none`; the JS falsiness of the empty
string is modelled explicitly wherever the source tests a string with `if (x)`
or `x || y`.

DOM selection and network fetches are external collaborators: documents are
embedded at the selector boundary (a record holding, for each selector the
source consults, the node list or first node that the selector returned), and a
fetch is an `Except`/`Option` input to the function under scrutiny.
-/

/-- JavaScript strings, embedded as lists of characters. -/
abbrev Str := List Char

/-- The fixed site origin, `const BASE = "https://allnovel.org"`. -/
def BASEs : Str := "https://allnovel.org".toList

/-- JS truthiness of a nullable string: `null`/`undefined`/`""` are falsy. -/
def truthy (o : Option Str) : Bool :=
  match o with
  | none => false
  | some s => !s.isEmpty

/-- JS `a || b` over nullable strings (falsy left operand selects `b`). -/
def jsOr (a b : Option Str) : Option Str :=
  if truthy a then a else b

/-- JS `String.prototype.toLowerCase` (character-wise, as in the source's ASCII labels). -/
def lowerS (s : Str) : Str := s.map Char.toLower

/-- JS `haystack.includes(needle)`: substring containment. -/
def includesS (s n : Str) : Bool := s.tails.any (fun t => n.isPrefixOf t)

/-- JS `s.startsWith(p)`. -/
def swS (s p : Str) : Bool := p.isPrefixOf s

/-- Whitespace test used by JS `trim` / `\s`. -/
def wsC (c : Char) : Bool := c.isWhitespace

/-- JS `s.trim()`: drop whitespace from both ends. -/
def trimS (s : Str) : Str :=
  ((s.dropWhile wsC).reverse.dropWhile wsC).reverse

mutual

/-- JS `s.replace(/\s+/g, " ")`: each maximal whitespace run becomes a
single space. -/
def squeezeWs : Str → Str
  | [] => []
  | c :: rest => if wsC c then ' ' :: squeezeSkipWs rest else c :: squeezeWs rest

/-- Continuation of `squeezeWs` inside a whitespace run already emitted as `' '`. -/
def squeezeSkipWs : Str → Str
  | [] => []
  | c :: rest => if wsC c then squeezeSkipWs rest else c :: squeezeWs rest

end

/-- `cleanText` (runtime variant): `null` for falsy input, else
`t.replace(/\s+/g, " ").trim()`. -/
def cleanText (t : Option Str) : Option Str :=
  match t with
  | none => none
  | some s => if s.isEmpty then none else some (trimS (squeezeWs s))

/-! ## URL model

`new URL(...)` is a runtime builtin, not repository code.  Modelled from the
spec (§4.1, §4.2): the WHATWG URL constructor, restricted to the input classes
the spec names — absolute `http(s)` URLs, scheme-relative (`//`) references,
origin-root-relative (`/`) references and plain relative references.  The
model's grammar requires a nonempty host and no whitespace; inputs outside the
grammar (which the real parser would reject or percent-encode) are treated as
parse failures, and serialisation of accepted inputs is the identity. -/

/-- Characters that terminate the host component. -/
def hostChar (c : Char) : Bool := c != '/' && c != '?' && c != '#'

/-- The substring after an `http://` / `https://` scheme prefix, if present. -/
def afterScheme (s : Str) : Option Str :=
  if swS s "https://".toList then some (s.drop 8)
  else if swS s "http://".toList then some (s.drop 7)
  else none

/-- Modelled from the spec: validity of an absolute URL for `new URL(s)`
(http(s) scheme, nonempty host, no whitespace). -/
def isValidAbsUrl (s : Str) : Bool :=
  match afterScheme s with
  | none => false
  | some rest =>
    match rest with
    | [] => false
    | c :: _ => hostChar c && s.all (fun ch => !wsC ch)

/-- The part of a URL before its query string. -/
def urlPath (s : Str) : Str := s.takeWhile (fun c => c != '?')

/-- The query string of a URL, `'?'` included (JS `u.search`). -/
def urlQuery (s : Str) : Str := s.dropWhile (fun c => c != '?')

/-- Modelled from the spec: `new URL(s, BASE).toString()`, restricted as above.
`none` is a parse failure (the constructor throwing). -/
def resolveWithBase (s : Str) : Option Str :=
  if swS s "http://".toList || swS s "https://".toList then
    if isValidAbsUrl s then some s else none
  else if swS s "//".toList then
    if isValidAbsUrl ("https:".toList ++ s) then some ("https:".toList ++ s) else none
  else if swS s "/".toList then
    if isValidAbsUrl (BASEs ++ s) then some (BASEs ++ s) else none
  else
    if isValidAbsUrl (BASEs ++ "/".toList ++ s) then some (BASEs ++ "/".toList ++ s) else none

/-- `toAbsolute(url)` (identical in both source variants):
`null` for falsy input, `new URL(url, BASE).toString()` when it parses,
the original string unchanged when the constructor throws. -/
def toAbsolute (o : Option Str) : Option Str :=
  match o with
  | none => none
  | some s =>
    if s.isEmpty then none
    else
      match resolveWithBase s with
      | some r => some r
      | none => some s

/-! ## Image URL normalisation (`fixImageUrl`, both variants) -/

/-- The literal `"/"` as a character list. -/
def slashS : Str := "/".toList

/-- The literal `"//"` as a character list. -/
def slash2S : Str := "//".toList

/-- The literal `"https:"` as a character list. -/
def httpsCS : Str := "https:".toList

/-- The literal `"https://"` as a character list. -/
def https2S : Str := "https://".toList

/-- Core of the runtime `fixImageUrl` on a non-null, non-empty raw string:
trim; `"https:" + u` for a `//` prefix; `BASE + u` for a `/` prefix; then
`new URL(u)` and, on success, drop the query string when longer than 80
characters. -/
def fixCoreRT (r : Str) : Str :=
  let u0 := trimS r
  let u1 := if swS u0 slash2S then httpsCS ++ u0 else u0
  let u2 := if swS u1 slashS then BASEs ++ u1 else u1
  if isValidAbsUrl u2 then
    if 80 < (urlQuery u2).length then urlPath u2 else u2
  else u2

/-- Runtime `fixImageUrl`: `null` for falsy input, else `fixCoreRT`. -/
def fixImageUrl (o : Option Str) : Option Str :=
  match o with
  | none => none
  | some r => if r.isEmpty then none else some (fixCoreRT r)

/-- Core of the class-variant `fixImageUrl`: trim; the regex
`^\/\/+ → "https://"` replaces a leading run of two or more slashes; `BASE + u`
for a remaining `/` prefix; then `new URL(u)` and, on success, drop the query
string when `searchParams.toString()` (the query without its `?`) is longer
than 40 characters. -/
def fixCoreClass (r : Str) : Str :=
  let u0 := trimS r
  let u1 := if swS u0 slash2S then https2S ++ (u0.dropWhile (fun c => c == '/')) else u0
  let u2 := if swS u1 slashS then BASEs ++ u1 else u1
  if isValidAbsUrl u2 then
    if 40 < ((urlQuery u2).drop 1).length then urlPath u2 else u2
  else u2

/-- Class-variant `fixImageUrl`. -/
def fixImageUrlClass (o : Option Str) : Option Str :=
  match o with
  | none => none
  | some r => if r.isEmpty then none else some (fixCoreClass r)

/-! ## Status classifier (`mapStatusToInt`, runtime variant) -/

/-- `mapStatusToInt(statusText)`: 5 for falsy input, else a first-match-wins
substring scan of the lowercased text. -/
def mapStatusToInt (o : Option Str) : Nat :=
  match o with
  | none => 5
  | some t =>
    if t.isEmpty then 5
    else
      let s := lowerS t
      if includesS s "ongoing".toList || includesS s "updating".toList ||
         includesS s "serial".toList then 0
      else if includesS s "complete".toList || includesS s "completed".toList ||
              includesS s "finished".toList then 1
      else if includesS s "hiatus".toList then 2
      else if includesS s "canceled".toList || includesS s "cancelled".toList then 3
      else if includesS s "publishingfinished".toList ||
              includesS s "publishing finished".toList then 4
      else 5

/-! ## Detail-page metadata scan (status extraction, both `getDetail` variants)

A metadata list item (`.post-meta li` etc.) is embedded as its text content. -/

/-- One iteration of the runtime `getDetail` meta loop, status accumulator
only: a list item whose lowercased text contains `"status"` (and not
`"author"`, checked first) sets the status to
`mapStatusToInt(cleanText(li.text))`; every other item leaves it unchanged. -/
def runtimeStatusStep (acc : Nat) (li : Str) : Nat :=
  let text := lowerS li
  if includesS text "author".toList then acc
  else if includesS text "status".toList then mapStatusToInt (cleanText (some li))
  else acc

/-- Runtime `getDetail` meta loop, status accumulator only: starts at the
unknown value 5. -/
def runtimeStatusInt (metas : List Str) : Nat :=
  metas.foldl runtimeStatusStep 5

/-- JS `li.textContent.replace(/status[:\s]*/i, "")`: delete the first
case-insensitive occurrence of `"status"` together with the following run of
colons/whitespace. -/
def replaceStatusOnce (l : Str) : Str :=
  match l with
  | [] => []
  | c :: rest =>
    if lowerS (l.take 6) = "status".toList then
      (l.drop 6).dropWhile (fun ch => ch = ':' || wsC ch)
    else c :: replaceStatusOnce rest

/-- Class-variant `getDetail` status mapping for one matching list item:
strip the label, lowercase, check the Ongoing and Completed substring
families, and otherwise keep the raw (label-stripped) site text. -/
def classStatusOfLi (li : Str) : Str :=
  let stripped := trimS (replaceStatusOnce li)
  let s := lowerS stripped
  if includesS s "ongoing".toList || includesS s "updating".toList ||
     includesS s "serial".toList then "Ongoing".toList
  else if includesS s "complete".toList || includesS s "completed".toList ||
          includesS s "finished".toList then "Completed".toList
  else stripped

/-- Class-variant `getDetail` meta loop, status accumulator only
(`status` starts as `null`). -/
def classStatus (metas : List Str) : Option Str :=
  metas.foldl (fun acc li =>
    let txt := lowerS li
    if includesS txt "author".toList then acc
    else if includesS txt "status".toList then some (classStatusOfLi li)
    else acc) none

/-! ## Description extraction (both `getDetail` variants)

The matched description container is embedded as its own text content plus the
text of its first `<p>` child, if any. -/

/-- Class-variant summary rule (`getDetail`, class variant): the container's
trimmed text, overridden by the first paragraph's trimmed text when that
paragraph exists and its trimmed length is under 400 characters. -/
def classSummary (containerText : Option Str) (firstP : Option Str) : Option Str :=
  match containerText with
  | none => none
  | some ct =>
    match firstP with
    | some pt => if (trimS pt).length < 400 then some (trimS pt) else some (trimS ct)
    | none => some (trimS ct)

/-- Runtime description rule (`getDetail`, runtime variant):
`cleanText` of the first paragraph's text when a paragraph exists, else of the
container's own text — no length threshold. -/
def runtimeDescription (containerText : Option Str) (firstP : Option Str) : Option Str :=
  match containerText with
  | none => none
  | some ct => cleanText (some (firstP.getD ct))

/-! ## Listing extraction (`parseListFromDoc`, runtime) and popular listing

A listing-item node is embedded at the selector boundary: one field per
selector result the source reads. -/

/-- An anchor node: `href` attribute (absent = `none`) and text content. -/
structure LAnchor where
  href : Option Str
  text : Str
deriving DecidableEq

/-- An `img` node: the three source attributes the code consults. -/
structure LImg where
  dataSrc : Option Str
  src : Option Str
  dataLazySrc : Option Str
deriving DecidableEq

/-- One matched item container, embedded as the `selectFirst` results the
runtime `parseListFromDoc` reads from it. -/
structure LNodeM where
  h2a : Option LAnchor
  entryTitleA : Option LAnchor
  anyA : Option LAnchor
  anyHrefA : Option LAnchor
  h2T : Option Str
  entryTitleT : Option Str
  titleT : Option Str
  img : Option LImg
  authT : Option Str
deriving DecidableEq

/-- A listing document, embedded as the `select` results the runtime code
reads: the node lists for the seven item-container selectors (in source
order), the global `/novel/`-or-`/book/` anchor list used by the final
fallback, and the presence of a next-page navigation node. -/
structure LDoc where
  candHits : List (List LNodeM)
  novelAnchors : List LAnchor
  hasNextNode : Bool
deriving DecidableEq

/-- A parsed listing entry (`{ url, name, link, cover, author }`). -/
structure PItem where
  url : Str
  name : Str
  link : Str
  cover : Option Str
  author : Option Str
deriving DecidableEq

/-- The per-node body of the runtime `parseListFromDoc` loop: title anchor
chain, href with `a[href]` fallback, name with heading fallback, cover via
`fixImageUrl`, author; the item is kept only when both the absolute url and
the name are truthy. -/
def itemOfNode (n : LNodeM) : Option PItem :=
  let a := n.h2a <|> n.entryTitleA <|> n.anyA
  let url0 : Option Str := match a with
    | some an => an.href
    | none => none
  let url1 := if truthy url0 then url0 else
    (match n.anyHrefA with
     | some an => an.href
     | none => none)
  let urlAbs := toAbsolute url1
  let nameA : Option Str := match a with
    | some an => cleanText (some an.text)
    | none => none
  let name := if truthy nameA then nameA else
    (match n.h2T <|> n.entryTitleT <|> n.titleT with
     | some tt => cleanText (some tt)
     | none => none)
  let cover := match n.img with
    | some im => fixImageUrl (jsOr (jsOr im.dataSrc im.src) im.dataLazySrc)
    | none => none
  let author := match n.authT with
    | some at' => cleanText (some at')
    | none => none
  match urlAbs, name with
  | some u, some nm =>
    if u.isEmpty || nm.isEmpty then none
    else some ⟨u, nm, u, cover, author⟩
  | _, _ => none

/-- The primary candidate-selector scan of `parseListFromDoc`: the first
selector whose node list yields at least one item wins; selectors yielding
no items (or no nodes) are skipped. -/
def primaryScan : List (List LNodeM) → List PItem
  | [] => []
  | hits :: rest =>
    let out := hits.filterMap itemOfNode
    if out.isEmpty then primaryScan rest else out

/-- The global-anchor fallback of `parseListFromDoc`, deduplicating on the
absolute href with a first-seen set. -/
def anchorScan : List LAnchor → List Str → List PItem
  | [], _ => []
  | a :: rest, seen =>
    match toAbsolute a.href, cleanText (some a.text) with
    | some href, some txt =>
      if href.isEmpty || txt.isEmpty then anchorScan rest seen
      else if href ∈ seen then anchorScan rest seen
      else ⟨href, txt, href, none, none⟩ :: anchorScan rest (href :: seen)
    | _, _ => anchorScan rest seen

/-- Runtime `parseListFromDoc`: primary scan, then the anchor fallback when
the primary scan produced nothing. -/
def parseListFromDoc (d : LDoc) : List PItem :=
  let out := primaryScan d.candHits
  if out.isEmpty then anchorScan d.novelAnchors [] else out

/-- Runtime `getPopular` candidate loop over the fetch outcomes of the three
candidate URLs (`Except.error` = the fetch threw): the first candidate whose
parsed list is nonempty is returned with its next-page flag; a transport
failure or an empty parse moves to the next candidate; after exhaustion the
function returns `{ list: [], hasNextPage: false }` — it does not fail. -/
def getPopularRT : List (Except Unit LDoc) → List PItem × Bool
  | [] => ([], false)
  | Except.error _ :: rest => getPopularRT rest
  | Except.ok d :: rest =>
    let l := parseListFromDoc d
    if l.isEmpty then getPopularRT rest else (l, d.hasNextNode)

/-- Class-variant `getPopular` deduplication: one pass with a seen-set,
keeping an item only when its url was not seen before. -/
def dedupeAux : List PItem → List Str → List PItem
  | [], _ => []
  | it :: rest, seen =>
    if it.url ∈ seen then dedupeAux rest seen
    else it :: dedupeAux rest (it.url :: seen)

/-- Class-variant `getPopular` dedupe entry point (`seen` starts empty). -/
def dedupeByUrl (l : List PItem) : List PItem := dedupeAux l []

/-! ## Chapter discovery (runtime `getDetail`) -/

/-- A chapter entry `{ name, url }`. -/
structure Chapter where
  name : Str
  url : Str
deriving DecidableEq

/-- One chapter anchor: absolute href (via `toAbsolute`) and cleaned text
must both be truthy for the anchor to produce a chapter. -/
def chapterOfAnchor (a : LAnchor) : Option Chapter :=
  match toAbsolute a.href, cleanText (some a.text) with
  | some href, some nm =>
    if href.isEmpty || nm.isEmpty then none else some ⟨nm, href⟩
  | _, _ => none

/-- Tier 1 of chapter discovery: the first chapter-selector hit list that
yields at least one valid chapter wins; empty hit lists and hit lists whose
anchors are all invalid are skipped. -/
def chapterTier1 : List (List LAnchor) → List Chapter
  | [] => []
  | els :: rest =>
    let cs := els.filterMap chapterOfAnchor
    if cs.isEmpty then chapterTier1 rest else cs

/-- The table-of-contents link search of tier 2: the first anchor whose
lowercased text contains one of the three phrases. -/
def findTocLink (as : List LAnchor) : Option LAnchor :=
  as.find? (fun a =>
    let t := lowerS a.text
    includesS t "table of contents".toList || includesS t "chapters".toList ||
      includesS t "view all".toList)

/-- Runtime `getDetail` chapter discovery. `hits` are the `select` results of
the eight chapter selectors against the detail document, `allAnchors` the
document's full anchor list, `tocFetch` the anchors selected from the fetched
table-of-contents page (`none` = that fetch threw, caught and ignored), and
`url` the work's absolute URL. -/
def getChaptersRT (hits : List (List LAnchor)) (allAnchors : List LAnchor)
    (tocFetch : Option (List LAnchor)) (url : Str) : List Chapter :=
  let c1 := chapterTier1 hits
  let cs :=
    if c1.isEmpty then
      match findTocLink allAnchors with
      | some a =>
        let tu := toAbsolute a.href
        if truthy tu then
          match tocFetch with
          | some tocEls => tocEls.filterMap chapterOfAnchor
          | none => []
        else []
      | none => []
    else c1
  if cs.isEmpty then [⟨"Chapter (single page)".toList, url⟩] else cs

/-! ## Content sanitizer (class-variant `cleanHtmlContent`) -/

/-- A DOM fragment node: text, or an element with tag, class list,
attributes and children. Tags, classes and attribute names/values are kept
as Lean strings (only equality and an `on` prefix test are needed). -/
inductive HNode where
  | htext (s : Str)
  | elem (tag : String) (classes : List String) (attrs : List (String × String))
      (children : List HNode)

/-- `script, style, iframe, noscript`. -/
def badTag (t : String) : Bool :=
  t == "script" || t == "style" || t == "iframe" || t == "noscript"

/-- `.ads, .advert, .share, .social, .related, .related-posts,
.post-navigation, .nav-links`. -/
def adClass (cs : List String) : Bool :=
  cs.any (fun c =>
    c == "ads" || c == "advert" || c == "share" || c == "social" ||
    c == "related" || c == "related-posts" || c == "post-navigation" ||
    c == "nav-links")

/-- An attribute name matching `/^on/i`. -/
def onAttr (name : String) : Bool := swS (lowerS name.toList) "on".toList

/-- `querySelectorAll(sel).forEach(n => n.remove())`: drop every node (with
its whole subtree) whose tag/classes satisfy `p`, recursively. -/
def removeNodes (p : String → List String → Bool) : List HNode → List HNode
  | [] => []
  | HNode.htext s :: rest => HNode.htext s :: removeNodes p rest
  | HNode.elem t c a ch :: rest =>
    if p t c then removeNodes p rest
    else HNode.elem t c a (removeNodes p ch) :: removeNodes p rest

/-- Strip every `on*` attribute from every remaining element. -/
def stripOnAttrs : List HNode → List HNode
  | [] => []
  | HNode.htext s :: rest => HNode.htext s :: stripOnAttrs rest
  | HNode.elem t c a ch :: rest =>
    HNode.elem t c (a.filter (fun pr => !onAttr pr.1)) (stripOnAttrs ch) ::
      stripOnAttrs rest

/-- `cleanHtmlContent`: remove script/style/iframe/noscript, remove
ad/share/related/post-navigation nodes, then strip event-handler
attributes. -/
def cleanHtmlContent (f : List HNode) : List HNode :=
  stripOnAttrs (removeNodes (fun _ c => adClass c) (removeNodes (fun t _ => badTag t) f))

/-- Does the forest contain (at any depth) an element satisfying `p`? -/
def hasNode (p : String → List String → Bool) : List HNode → Bool
  | [] => false
  | HNode.htext _ :: rest => hasNode p rest
  | HNode.elem t c _ ch :: rest => p t c || hasNode p ch || hasNode p rest

/-- Does the forest contain (at any depth) an `on*` attribute? -/
def hasOnAttr : List HNode → Bool
  | [] => false
  | HNode.htext _ :: rest => hasOnAttr rest
  | HNode.elem _ _ a ch :: rest =>
    a.any (fun pr => onAttr pr.1) || hasOnAttr ch || hasOnAttr rest

/-- Concatenated text content of a forest. -/
def textContent : List HNode → Str
  | [] => []
  | HNode.htext s :: rest => s ++ textContent rest
  | HNode.elem _ _ _ ch :: rest => textContent ch ++ textContent rest

/-- The text contents of all `p` elements, in document order. -/
def pTexts : List HNode → List Str
  | [] => []
  | HNode.htext _ :: rest => pTexts rest
  | HNode.elem t _ _ ch :: rest =>
    (if t == "p" then [textContent ch] else []) ++ pTexts ch ++ pTexts rest

/-! ## Chapter pages (runtime `getPageList`) -/

/-- A content-container node for `getPageList`: its text, its `img`
descendants and the texts of its `p` descendants. -/
structure PNodeC where
  text : Str
  imgs : List LImg
  paras : List Str
deriving DecidableEq

/-- A chapter document for `getPageList`: the `selectFirst` results for the
eight content selectors (in source order) and for the `article` / `.post`
fallbacks. -/
structure CDoc where
  selHits : List (Option PNodeC)
  article : Option PNodeC
  post : Option PNodeC
deriving DecidableEq

/-- The content-selector chain: the first selector whose node has nonempty
(trimmed-nonempty in spirit: `length > 0` untrimmed in the source) text. -/
def firstContentHit : List (Option PNodeC) → Option PNodeC
  | [] => none
  | some n :: rest => if (trimS n.text).isEmpty then firstContentHit rest else some n
  | none :: rest => firstContentHit rest

/-- `getPageList` content-node choice: selector chain, then
`article` / `.post`. -/
def pickContent (d : CDoc) : Option PNodeC :=
  match firstContentHit d.selHits with
  | some n => some n
  | none => d.article <|> d.post

/-- Modelled from the spec: JS `encodeURIComponent`, restricted to
single-byte characters (the unreserved set is kept, every other character
becomes `%HH` of its code point; multi-byte UTF-8 expansion is outside the
model). -/
def hexDigit (n : Nat) : Char :=
  if n < 10 then Char.ofNat ('0'.toNat + n) else Char.ofNat ('A'.toNat + n - 10)

/-- Unreserved characters of `encodeURIComponent` (39 is the apostrophe). -/
def uriUnreserved (c : Char) : Bool :=
  c.isAlphanum || c = '-' || c = '_' || c = '.' || c = '!' || c = '~' ||
  c = '*' || c.toNat = 39 || c = '(' || c = ')'

/-- Modelled from the spec: `encodeURIComponent`, restricted as above. -/
def encodeURIComponent (s : Str) : Str :=
  (s.map (fun c =>
    if uriUnreserved c then [c]
    else ['%', hexDigit (c.toNat / 16 % 16), hexDigit (c.toNat % 16)])).flatten

/-- The `data:text/html,` page built from one paragraph of a text-only
chapter. -/
def dataUrlOfPara (p : Str) : Str :=
  "data:text/html,".toList ++
    encodeURIComponent ("<p>".toList ++ trimS p ++ "</p>".toList)

/-- One image's page URL: lazy-load attribute chain, `toAbsolute`, then
`fixImageUrl`; falsy results are dropped. -/
def pageOfImg (i : LImg) : Option Str :=
  let s2 := fixImageUrl (toAbsolute (jsOr (jsOr i.dataSrc i.src) i.dataLazySrc))
  if truthy s2 then s2 else none

/-- Runtime `getPageList` after the fetch: pick the content node; with at
least one image, collect the resolved and normalised image sources; with no
images, wrap each paragraph as a `data:` URL; with no content node at all,
return the empty array. The function always returns an array and per-image
failures are dropped, never propagated. -/
def getPageList (d : CDoc) : List Str :=
  match pickContent d with
  | none => []
  | some node =>
    if node.imgs.isEmpty then node.paras.map dataUrlOfPara
    else node.imgs.filterMap pageOfImg

/-! ## Spec-side predicates and concrete witness data -/

/-- Ongoing substring family of the §4.3 decision table. -/
def famOngoing (s : Str) : Bool :=
  includesS s "ongoing".toList || includesS s "updating".toList ||
    includesS s "serial".toList

/-- Completed substring family of the §4.3 decision table. -/
def famCompleted (s : Str) : Bool :=
  includesS s "complete".toList || includesS s "completed".toList ||
    includesS s "finished".toList

/-- Cancelled substring family actually checked by `mapStatusToInt`. -/
def famCanceled (s : Str) : Bool :=
  includesS s "canceled".toList || includesS s "cancelled".toList

/-- A candidate outcome that contributes nothing to `getPopular`: the fetch
threw, or the fetched page parsed to an empty list. -/
def candExhausted (c : Except Unit LDoc) : Prop :=
  match c with
  | Except.error _ => True
  | Except.ok d => parseListFromDoc d = []

/-- A 400-character paragraph (the class-variant threshold, reached). -/
def paC : Str := List.replicate 400 'a'

/-- A description container whose text strictly extends `paC`. -/
def ctC : Str := paC ++ List.replicate 3 'Z'

/-- A listing-item node carrying one `/novel/` link, used twice in
`dupListDoc`. -/
def dupListNode : LNodeM :=
  ⟨some ⟨some "/novel/x".toList, "X".toList⟩, none, none, none, none, none,
    none, none, none⟩

/-- A listing document whose first item-container selector matches the same
work twice. -/
def dupListDoc : LDoc := ⟨[[dupListNode, dupListNode]], [], false⟩

/-- A listing document with a single valid item, used as a successful
`getPopular` candidate. -/
def okListDoc : LDoc :=
  ⟨[[⟨some ⟨some "/novel/y".toList, "Y".toList⟩, none, none, none, none, none,
      none, none, none⟩]], [], true⟩

/-- A chapter document with one image inside the first content container. -/
def samplePageDoc : CDoc :=
  ⟨[some ⟨"body text".toList, [⟨some "/img/1.jpg".toList, none, none⟩], []⟩],
    none, none⟩

/-- A fragment holding just a paragraph with an `onclick` attribute. -/
def sampleFragment : List HNode :=
  [HNode.elem "p" [] [("onclick", "x()")] [HNode.htext "hello".toList]]

/-! ## Basic list/trim lemmas -/

theorem dropWhile_head_false (p : Char → Bool) (l : Str) (c : Char) (t : Str)
    (h : l.dropWhile p = c :: t) : p c = false := by
  induction l with
  | nil => simp at h
  | cons a u ih =>
    by_cases ha : p a = true
    · rw [List.dropWhile_cons, if_pos ha] at h
      exact ih h
    · rw [List.dropWhile_cons, if_neg ha] at h
      cases h
      simpa using ha

theorem trimS_of_ends (s : Str)
    (hhead : ∀ c t, s = c :: t → wsC c = false)
    (hlast : ∀ c t, s.reverse = c :: t → wsC c = false) :
    trimS s = s := by
  unfold trimS
  cases hs : s with
  | nil => simp
  | cons c t =>
    have h1 : wsC c = false := hhead c t hs
    have e1 : List.dropWhile wsC (c :: t) = c :: t :=
      List.dropWhile_cons_of_neg (by simp [h1])
    rw [e1]
    cases hr : (c :: t).reverse with
    | nil => exact absurd hr (by simp)
    | cons d u =>
      have h2 : wsC d = false := hlast d u (by rw [hs]; exact hr)
      have e2 : List.dropWhile wsC (d :: u) = d :: u :=
        List.dropWhile_cons_of_neg (by simp [h2])
      rw [e2, ← hr, List.reverse_reverse]

theorem trimS_all_not_ws (s : Str) (h : s.all (fun c => !wsC c) = true) :
    trimS s = s := by
  refine trimS_of_ends s ?_ ?_
  · intro c t hct
    rw [List.all_eq_true] at h
    have := h c (by rw [hct]; simp)
    simpa using this
  · intro c t hct
    have hc : c ∈ s := by
      have : c ∈ s.reverse := by rw [hct]; simp
      simpa using this
    rw [List.all_eq_true] at h
    simpa using h c hc

theorem rtrim_is_prefix (l : Str) :
    l = (l.reverse.dropWhile wsC).reverse ++ (l.reverse.takeWhile wsC).reverse := by
  have h := congrArg List.reverse (List.takeWhile_append_dropWhile wsC l.reverse)
  rw [List.reverse_append, List.reverse_reverse] at h
  exact h.symm

theorem trimS_head_nws (s : Str) (c : Char) (t : Str)
    (h : trimS s = c :: t) : wsC c = false := by
  have hu := rtrim_is_prefix (s.dropWhile wsC)
  have htr : ((s.dropWhile wsC).reverse.dropWhile wsC).reverse = trimS s := rfl
  rw [htr, h] at hu
  exact dropWhile_head_false wsC s c
    (t ++ ((s.dropWhile wsC).reverse.takeWhile wsC).reverse) (by simpa using hu)

theorem trimS_last_nws (s : Str) (c : Char) (t : Str)
    (h : (trimS s).reverse = c :: t) : wsC c = false := by
  unfold trimS at h
  rw [List.reverse_reverse] at h
  exact dropWhile_head_false wsC (s.dropWhile wsC).reverse c t h

theorem trimS_idem (s : Str) : trimS (trimS s) = trimS s :=
  trimS_of_ends (trimS s) (trimS_head_nws s) (trimS_last_nws s)

theorem includesS_iff (s n : Str) : includesS s n = true ↔ n <:+: s := by
  unfold includesS
  rw [List.any_eq_true]
  constructor
  · rintro ⟨t, ht, hp⟩
    rw [List.mem_tails] at ht
    rw [ List.isPrefixOf_iff_prefix] at hp
    obtain ⟨v, hv⟩ := hp
    obtain ⟨w, hw⟩ := ht
    exact ⟨w, v, by rw [← hw, ← hv]; simp⟩
  · rintro ⟨w, v, hwv⟩
    refine ⟨n ++ v, ?_, ?_⟩
    · rw [List.mem_tails]
      exact ⟨w, by rw [← hwv]; simp⟩
    · rw [ List.isPrefixOf_iff_prefix]
      exact ⟨v, rfl⟩

theorem includes_suffix_part (s n1 n2 : Str) (h : includesS s (n1 ++ n2) = true) :
    includesS s n2 = true := by
  rw [includesS_iff] at h ⊢
  obtain ⟨l, r, hlr⟩ := h
  exact ⟨l ++ n1, r, by rw [← hlr]; simp⟩

theorem includes_nil_elim (n : Str) (c : Char) (t : Str) (hn : n = c :: t)
    (h : includesS [] n = true) : False := by
  subst hn
  rw [includesS_iff] at h
  obtain ⟨l, r, hlr⟩ := h
  simpa using congrArg List.length hlr

/-- C1, counterexample: the claim's Cancelled row names the substring
`"cancel"`, but `mapStatusToInt` only checks `"canceled"`/`"cancelled"`; the
label `"cancel"` matches no earlier row, contains `"cancel"`, and is mapped to
5 (Unknown), not 3 (Cancelled). -/
theorem mapStatusToInt_cancel_counterexample :
    includesS (lowerS "cancel".toList) "cancel".toList = true ∧
    famOngoing (lowerS "cancel".toList) = false ∧
    famCompleted (lowerS "cancel".toList) = false ∧
    includesS (lowerS "cancel".toList) "hiatus".toList = false ∧
    mapStatusToInt (some "cancel".toList) = 5 ∧ (5 : Nat) ≠ 3 := by
  decide

/-- C1 (amended): `mapStatusToInt` realises the §4.3 decision table with
first-match-wins, substring-based, case-insensitive matching, except that the
Cancelled row matches `"canceled"`/`"cancelled"` rather than the bare
`"cancel"`; null and empty input map to 5, the Ongoing family to 0, then the
Completed family to 1, then `"hiatus"` to 2, then `"canceled"`/`"cancelled"`
to 3; a label containing `"publishing finished"` also contains `"finished"`
and is therefore classified 1 (Completed) — the PublishingFinished row is
unreachable — and a label matching no family maps to 5. -/
theorem mapStatusToInt_decision_table :
    mapStatusToInt none = 5 ∧
    mapStatusToInt (some []) = 5 ∧
    (∀ t : Str, famOngoing (lowerS t) = true → mapStatusToInt (some t) = 0) ∧
    (∀ t : Str, famOngoing (lowerS t) = false → famCompleted (lowerS t) = true →
      mapStatusToInt (some t) = 1) ∧
    (∀ t : Str, famOngoing (lowerS t) = false → famCompleted (lowerS t) = false →
      includesS (lowerS t) "hiatus".toList = true → mapStatusToInt (some t) = 2) ∧
    (∀ t : Str, famOngoing (lowerS t) = false → famCompleted (lowerS t) = false →
      includesS (lowerS t) "hiatus".toList = false → famCanceled (lowerS t) = true →
      mapStatusToInt (some t) = 3) ∧
    (∀ t : Str, famOngoing (lowerS t) = false →
      includesS (lowerS t) "publishing finished".toList = true →
      mapStatusToInt (some t) = 1) ∧
    (∀ t : Str, famOngoing (lowerS t) = false → famCompleted (lowerS t) = false →
      includesS (lowerS t) "hiatus".toList = false → famCanceled (lowerS t) = false →
      mapStatusToInt (some t) = 5) := by
  refine ⟨rfl, rfl, ?_, ?_, ?_, ?_, ?_, ?_⟩
  · intro t h
    match t with
    | [] => exact absurd h (by decide)
    | c :: ts =>
      unfold famOngoing at h
      simp only [mapStatusToInt, List.isEmpty_cons]
      rw [if_neg (by simp), if_pos h]
  · intro t h1 h2
    match t with
    | [] => exact absurd h2 (by decide)
    | c :: ts =>
      unfold famOngoing at h1
      unfold famCompleted at h2
      simp only [mapStatusToInt, List.isEmpty_cons]
      rw [if_neg (by simp), if_neg (by rw [h1]; simp), if_pos h2]
  · intro t h1 h2 h3
    match t with
    | [] => exact absurd h3 (by decide)
    | c :: ts =>
      unfold famOngoing at h1
      unfold famCompleted at h2
      simp only [mapStatusToInt, List.isEmpty_cons]
      rw [if_neg (by simp), if_neg (by rw [h1]; simp), if_neg (by rw [h2]; simp), if_pos h3]
  · intro t h1 h2 h3 h4
    match t with
    | [] => exact absurd h4 (by decide)
    | c :: ts =>
      unfold famOngoing at h1
      unfold famCompleted at h2
      unfold famCanceled at h4
      simp only [mapStatusToInt, List.isEmpty_cons]
      rw [if_neg (by simp), if_neg (by rw [h1]; simp), if_neg (by rw [h2]; simp),
        if_neg (by rw [h3]; simp), if_pos h4]
  · intro t h1 h2
    have hfin : includesS (lowerS t) "finished".toList = true := by
      refine includes_suffix_part (lowerS t) "publishing ".toList "finished".toList ?_
      have e : "publishing ".toList ++ "finished".toList = "publishing finished".toList := by
        decide
      rw [e]
      exact h2
    have h2' : (includesS (lowerS t) "complete".toList ||
        includesS (lowerS t) "completed".toList ||
        includesS (lowerS t) "finished".toList) = true := by
      rw [hfin]
      simp
    match t with
    | [] => exact absurd h2 (by decide)
    | c :: ts =>
      unfold famOngoing at h1
      simp only [mapStatusToInt, List.isEmpty_cons]
      rw [if_neg (by simp), if_neg (by rw [h1]; simp), if_pos h2']
  · intro t h1 h2 h3 h4
    have hfin : includesS (lowerS t) "finished".toList = false := by
      unfold famCompleted at h2
      simp only [Bool.or_eq_false_iff] at h2
      exact h2.2
    have hp1 : includesS (lowerS t) "publishingfinished".toList = false := by
      cases hq : includesS (lowerS t) "publishingfinished".toList
      · rfl
      · exfalso
        have hc := includes_suffix_part (lowerS t) "publishing".toList "finished".toList (by
          have e : "publishing".toList ++ "finished".toList = "publishingfinished".toList := by
            decide
          rw [e]
          exact hq)
        rw [hc] at hfin
        cases hfin
    have hp2 : includesS (lowerS t) "publishing finished".toList = false := by
      cases hq : includesS (lowerS t) "publishing finished".toList
      · rfl
      · exfalso
        have hc := includes_suffix_part (lowerS t) "publishing ".toList "finished".toList (by
          have e : "publishing ".toList ++ "finished".toList = "publishing finished".toList := by
            decide
          rw [e]
          exact hq)
        rw [hc] at hfin
        cases hfin
    match t with
    | [] => rfl
    | c :: ts =>
      unfold famOngoing at h1
      unfold famCompleted at h2
      unfold famCanceled at h4
      have hpq : (includesS (lowerS (c :: ts)) "publishingfinished".toList ||
          includesS (lowerS (c :: ts)) "publishing finished".toList) = false := by
        rw [hp1, hp2]
        rfl
      simp only [mapStatusToInt, List.isEmpty_cons]
      rw [if_neg (by simp), if_neg (by rw [h1]; simp), if_neg (by rw [h2]; simp),
        if_neg (by rw [h3]; simp), if_neg (by rw [h4]; simp), if_neg (by rw [hpq]; simp)]

/-- C1, witness: the amended decision table evaluated on the spec's own
examples plus a Cancelled-family and an unmatched label. -/
theorem mapStatusToInt_decision_table_witness :
    mapStatusToInt (some "Currently Ongoing".toList) = 0 ∧
    mapStatusToInt (some "Completed!".toList) = 1 ∧
    mapStatusToInt (some "On Hiatus".toList) = 2 ∧
    mapStatusToInt (some "Cancelled".toList) = 3 ∧
    mapStatusToInt (some "publishing finished".toList) = 1 ∧
    mapStatusToInt (some "???".toList) = 5 := by
  obtain ⟨-, -, h3, h4, h5, h6, h7, h8⟩ := mapStatusToInt_decision_table
  exact ⟨h3 _ (by decide), h4 _ (by decide) (by decide),
    h5 _ (by decide) (by decide) (by decide),
    h6 _ (by decide) (by decide) (by decide) (by decide),
    h7 _ (by decide) (by decide),
    h8 _ (by decide) (by decide) (by decide) (by decide)⟩

theorem mapStatusToInt_mem (o : Option Str) :
    mapStatusToInt o ∈ [0, 1, 2, 3, 4, 5] := by
  match o with
  | none => decide
  | some t =>
    simp only [mapStatusToInt]
    split
    · decide
    · split
      · decide
      · split
        · decide
        · split
          · decide
          · split
            · decide
            · split
              · decide
              · decide

theorem runtimeStatusStep_mem (acc : Nat) (li : Str)
    (hacc : acc ∈ [0, 1, 2, 3, 4, 5]) :
    runtimeStatusStep acc li ∈ [0, 1, 2, 3, 4, 5] := by
  unfold runtimeStatusStep
  by_cases h1 : includesS (lowerS li) "author".toList = true
  · rw [if_pos h1]
    exact hacc
  · rw [if_neg h1]
    by_cases h2 : includesS (lowerS li) "status".toList = true
    · rw [if_pos h2]
      exact mapStatusToInt_mem (cleanText (some li))
    · rw [if_neg h2]
      exact hacc

theorem runtimeStatusInt_aux_mem (metas : List Str) (acc : Nat)
    (hacc : acc ∈ [0, 1, 2, 3, 4, 5]) :
    metas.foldl runtimeStatusStep acc ∈ [0, 1, 2, 3, 4, 5] := by
  induction metas generalizing acc with
  | nil => simpa using hacc
  | cons li rest ih =>
    simp only [List.foldl_cons]
    exact ih (runtimeStatusStep acc li) (runtimeStatusStep_mem acc li hacc)

/-- C2, counterexample: in the class variant, a metadata item
`"Status: On Hiatus"` matches the status branch, matches neither the Ongoing
nor the Completed substring families, and so the raw label-stripped site text
`"On Hiatus"` is stored as the status — a value outside the closed six-value
set. -/
theorem classStatus_raw_text_counterexample :
    classStatus ["Status: On Hiatus".toList] = some "On Hiatus".toList ∧
    "On Hiatus".toList ∉ ["Ongoing".toList, "Completed".toList, "Hiatus".toList,
      "Cancelled".toList, "PublishingFinished".toList, "Unknown".toList] := by
  decide

/-- C2 (amended): in the runtime variant, the status field built by
`getDetail`'s metadata scan is always one of the six closed values 0..5
(it starts at 5 and is only ever overwritten by `mapStatusToInt`); the
class-based `DefaultExtension.getDetail` does not share this invariant and
can return raw site text. -/
theorem runtimeStatus_closed_set (metas : List Str) :
    runtimeStatusInt metas ∈ [0, 1, 2, 3, 4, 5] := by
  unfold runtimeStatusInt
  exact runtimeStatusInt_aux_mem metas 5 (by decide)

/-- C2, witness: the closed-set invariant evaluated on a concrete metadata
list that sets a status. -/
theorem runtimeStatus_closed_set_witness :
    runtimeStatusInt ["Author: A. Writer".toList, "Status: Ongoing".toList] ∈
      [0, 1, 2, 3, 4, 5] :=
  runtimeStatus_closed_set ["Author: A. Writer".toList, "Status: Ongoing".toList]

/-- C3, counterexample: when every candidate fetch fails (here all three
candidate URLs), the runtime `getPopular` does not fail — it returns the
silently successful empty result `{ list: [], hasNextPage: false }`,
contradicting "the caller sees a failed operation exactly when all candidates
are exhausted". -/
theorem getPopular_exhausted_returns_empty_counterexample :
    getPopularRT [Except.error (), Except.error (), Except.error ()] = ([], false) := by
  rfl

/-- C3 (amended): in the runtime `getPopular`, a transport failure on a
candidate is caught locally and the next candidate is attempted; a candidate
whose fetched page parses to a nonempty list short-circuits and is returned
with its next-page flag; a candidate parsing to an empty list is also skipped;
and when every candidate is exhausted the operation returns the successful
empty result `{ list: [], hasNextPage: false }` rather than a failure — the
operation never fails. -/
theorem getPopular_candidate_fallback :
    (∀ (e : Unit) (rest : List (Except Unit LDoc)),
      getPopularRT (Except.error e :: rest) = getPopularRT rest) ∧
    (∀ (d : LDoc) (rest : List (Except Unit LDoc)), parseListFromDoc d ≠ [] →
      getPopularRT (Except.ok d :: rest) = (parseListFromDoc d, d.hasNextNode)) ∧
    (∀ (d : LDoc) (rest : List (Except Unit LDoc)), parseListFromDoc d = [] →
      getPopularRT (Except.ok d :: rest) = getPopularRT rest) ∧
    (∀ cands : List (Except Unit LDoc), (∀ c ∈ cands, candExhausted c) →
      getPopularRT cands = ([], false)) := by
  refine ⟨fun e rest => rfl, ?_, ?_, ?_⟩
  · intro d rest h
    simp only [getPopularRT]
    rw [if_neg (by simp [List.isEmpty_iff, h])]
  · intro d rest h
    simp only [getPopularRT]
    rw [if_pos (by simp [List.isEmpty_iff, h])]
  · intro cands h
    induction cands with
    | nil => rfl
    | cons c rest ih =>
      have hrest : ∀ x ∈ rest, candExhausted x := fun x hx => h x (by simp [hx])
      match c with
      | Except.error e => rw [show getPopularRT (Except.error e :: rest) =
          getPopularRT rest from rfl]; exact ih hrest
      | Except.ok d =>
        have hd : parseListFromDoc d = [] := h (Except.ok d) (by simp)
        simp only [getPopularRT]
        rw [if_pos (by simp [List.isEmpty_iff, hd])]
        exact ih hrest

/-- C3, witness: a successful first candidate short-circuits with its parsed
list, and an exhausted candidate list yields the empty success. -/
theorem getPopular_candidate_fallback_witness :
    getPopularRT [Except.ok okListDoc] =
      (parseListFromDoc okListDoc, okListDoc.hasNextNode) ∧
    getPopularRT [Except.error ()] = ([], false) := by
  obtain ⟨h1, h2, h3, h4⟩ := getPopular_candidate_fallback
  exact ⟨h2 okListDoc [] (by decide), h4 [Except.error ()] (by
    intro c hc
    simp at hc
    subst hc
    exact trivial)⟩

theorem squeezeWs_all_not_ws (l : Str) (h : l.all (fun c => !wsC c) = true) :
    squeezeWs l = l := by
  induction l with
  | nil => rfl
  | cons c rest ih =>
    rw [List.all_cons] at h
    have hc : wsC c = false := by
      cases hw : wsC c
      · rfl
      · rw [hw] at h
        simp at h
    have hrest : rest.all (fun c => !wsC c) = true := by
      cases hr : rest.all (fun c => !wsC c)
      · rw [hr] at h
        simp at h
      · rfl
    rw [squeezeWs, if_neg (by simp [hc]), ih hrest]

theorem cleanText_all_not_ws (l : Str) (hne : l ≠ [])
    (h : l.all (fun c => !wsC c) = true) :
    cleanText (some l) = some l := by
  simp only [cleanText]
  rw [if_neg (by simp [List.isEmpty_iff, hne]), squeezeWs_all_not_ws l h,
    trimS_all_not_ws l h]

theorem all_not_ws_replicate (n : Nat) (c : Char) (hc : wsC c = false) :
    (List.replicate n c).all (fun x => !wsC x) = true := by
  rw [List.all_eq_true]
  intro x hx
  rw [List.eq_of_mem_replicate hx]
  simp [hc]

theorem paC_facts : paC.all (fun x => !wsC x) = true ∧ paC.length = 400 ∧ paC ≠ [] := by
  refine ⟨all_not_ws_replicate 400 'a' (by decide), by rw [paC, List.length_replicate], ?_⟩
  intro h
  have h2 := congrArg List.length h
  rw [paC, List.length_replicate] at h2
  simp at h2

theorem ctC_facts : ctC.all (fun x => !wsC x) = true ∧ ctC.length = 403 := by
  constructor
  · unfold ctC
    rw [List.all_append]
    rw [paC_facts.1]
    rw [all_not_ws_replicate 3 'Z' (by decide)]
    rfl
  · rw [ctC, List.length_append, paC, List.length_replicate, List.length_replicate]

/-- C4, counterexample: in the runtime `getDetail`, a first description
paragraph whose trimmed text is exactly 400 characters long (the threshold is
reached) is still preferred over the container's text — the runtime variant
applies no 400-character threshold at all. -/
theorem runtimeDescription_no_threshold_counterexample :
    400 ≤ (trimS paC).length ∧
    runtimeDescription (some ctC) (some paC) = some paC ∧
    runtimeDescription (some ctC) (some paC) ≠ some (trimS ctC) := by
  obtain ⟨hall, hlen, hne⟩ := paC_facts
  have htrim : trimS paC = paC := trimS_all_not_ws paC hall
  refine ⟨by rw [htrim, hlen], ?_, ?_⟩
  · unfold runtimeDescription
    simp only [Option.getD_some]
    exact cleanText_all_not_ws paC hne hall
  · unfold runtimeDescription
    simp only [Option.getD_some]
    rw [cleanText_all_not_ws paC hne hall,
      trimS_all_not_ws ctC ctC_facts.1]
    intro h
    have h2 := congrArg (fun o => (Option.getD o []).length) h
    simp [hlen, ctC_facts.2] at h2

/-- C4 (amended): the 400-character preference exists only in the class
variant: there, when the matched container has a first paragraph, the
description is the paragraph's trimmed text exactly when its trimmed length
is under 400, and the container's trimmed text otherwise; the runtime variant
unconditionally uses the first paragraph's whitespace-normalised text,
regardless of its length. -/
theorem description_threshold_spec :
    (∀ ct p : Str, (trimS p).length < 400 →
      classSummary (some ct) (some p) = some (trimS p)) ∧
    (∀ ct p : Str, 400 ≤ (trimS p).length →
      classSummary (some ct) (some p) = some (trimS ct)) ∧
    (∀ ct : Str, classSummary (some ct) none = some (trimS ct)) ∧
    (∀ ct p : Str, runtimeDescription (some ct) (some p) = cleanText (some p)) := by
  refine ⟨?_, ?_, fun ct => rfl, fun ct p => rfl⟩
  · intro ct p h
    simp only [classSummary]
    rw [if_pos h]
  · intro ct p h
    simp only [classSummary]
    rw [if_neg (by omega)]

/-- C4, witness: a short paragraph is preferred, an over-threshold paragraph
is replaced by the container text in the class variant, and the runtime
variant returns the paragraph's cleaned text. -/
theorem description_threshold_spec_witness :
    classSummary (some "full container text".toList) (some "short summary".toList) =
      some (trimS "short summary".toList) ∧
    classSummary (some ctC) (some paC) = some (trimS ctC) ∧
    runtimeDescription (some "full container text".toList) (some "short summary".toList) =
      cleanText (some "short summary".toList) := by
  obtain ⟨h1, h2, h3, h4⟩ := description_threshold_spec
  refine ⟨h1 _ _ (by decide), h2 ctC paC ?_, h4 _ _⟩
  rw [trimS_all_not_ws paC paC_facts.1, paC_facts.2.1]

theorem chapterTier1_nil (hits : List (List LAnchor)) (h : ∀ l ∈ hits, l = []) :
    chapterTier1 hits = [] := by
  induction hits with
  | nil => rfl
  | cons els rest ih =>
    have hels : els = [] := h els (by simp)
    subst hels
    rw [chapterTier1]
    simp only [List.filterMap_nil, List.isEmpty_nil, if_pos]
    exact ih (fun l hl => h l (by simp [hl]))

/-- C5 (confirmed): when no chapter-container selector matches any anchor and
no anchor's lowercased text contains "table of contents", "chapters", or
"view all", the chapter list built by the runtime `getDetail` (and thus by
`getChapterList`, which returns `detail.chapters`) is exactly the single
synthetic entry `{ name: "Chapter (single page)", url }`, where `url` is the
work's absolute URL; in particular it is never empty. -/
theorem getChapters_synthetic_fallback (hits : List (List LAnchor))
    (allAnchors : List LAnchor) (tocFetch : Option (List LAnchor)) (url : Str)
    (h1 : ∀ l ∈ hits, l = [])
    (h2 : ∀ a ∈ allAnchors,
      (includesS (lowerS a.text) "table of contents".toList ||
       includesS (lowerS a.text) "chapters".toList ||
       includesS (lowerS a.text) "view all".toList) = false) :
    getChaptersRT hits allAnchors tocFetch url =
      [⟨"Chapter (single page)".toList, url⟩] ∧
    getChaptersRT hits allAnchors tocFetch url ≠ [] := by
  have ht1 : chapterTier1 hits = [] := chapterTier1_nil hits h1
  have htoc : findTocLink allAnchors = none := by
    rw [findTocLink, List.find?_eq_none]
    intro a ha
    intro hq
    simp only [] at hq
    rw [h2 a ha] at hq
    cases hq
  constructor
  · simp only [getChaptersRT, ht1, htoc]
    simp
  · simp only [getChaptersRT, ht1, htoc]
    simp

/-- C5, witness: a detail document with two empty selector hit lists and one
unrelated anchor produces exactly the synthetic single-page chapter. -/
theorem getChapters_synthetic_fallback_witness :
    getChaptersRT [[], []] [⟨some "/about".toList, "About us".toList⟩] none
      "https://allnovel.org/novel/w".toList =
      [⟨"Chapter (single page)".toList, "https://allnovel.org/novel/w".toList⟩] ∧
    getChaptersRT [[], []] [⟨some "/about".toList, "About us".toList⟩] none
      "https://allnovel.org/novel/w".toList ≠ [] := by
  refine getChapters_synthetic_fallback [[], []]
    [⟨some "/about".toList, "About us".toList⟩] none
    "https://allnovel.org/novel/w".toList ?_ ?_
  · intro l hl
    simp at hl
    rcases hl with rfl | rfl
    rfl
  · intro a ha
    simp at ha
    subst ha
    decide

theorem swS_cons (s : Str) (c : Char) (pt : Str) (h : swS s (c :: pt) = true) :
    ∃ u, s = c :: u := by
  unfold swS at h
  match s with
  | [] => simp [List.isPrefixOf] at h
  | a :: u =>
    simp only [List.isPrefixOf, Bool.and_eq_true, beq_iff_eq] at h
    exact ⟨u, by rw [h.1]⟩

theorem slash_head_not_http (s : Str) (u : Str) (hu : s = '/' :: u) :
    (swS s "http://".toList || swS s "https://".toList) = false := by
  subst hu
  rfl

/-- C6 (confirmed): `toAbsolute` is total and best-effort over the modelled
URL collaborator: null and empty input give null; when the parse of a
non-empty input fails, the original string is returned unchanged; every
non-empty input produces some output (never a thrown error); a `//` value
parses scheme-relative to `https:`; a `/` value parses against the origin
root. -/
theorem toAbsolute_spec :
    toAbsolute none = none ∧
    toAbsolute (some []) = none ∧
    (∀ s : Str, s ≠ [] → resolveWithBase s = none → toAbsolute (some s) = some s) ∧
    (∀ s : Str, s ≠ [] → ∃ r : Str, toAbsolute (some s) = some r) ∧
    (∀ s : Str, swS s "//".toList = true →
      isValidAbsUrl ("https:".toList ++ s) = true →
      toAbsolute (some s) = some ("https:".toList ++ s)) ∧
    (∀ s : Str, swS s "/".toList = true → swS s "//".toList = false →
      isValidAbsUrl (BASEs ++ s) = true →
      toAbsolute (some s) = some (BASEs ++ s)) := by
  refine ⟨rfl, rfl, ?_, ?_, ?_, ?_⟩
  · intro s hne hnone
    simp only [toAbsolute]
    rw [if_neg (by simp [List.isEmpty_iff, hne])]
    rw [hnone]
  · intro s hne
    cases hres : resolveWithBase s with
    | none =>
      refine ⟨s, ?_⟩
      simp only [toAbsolute]
      rw [if_neg (by simp [List.isEmpty_iff, hne])]
      rw [hres]
    | some r =>
      refine ⟨r, ?_⟩
      simp only [toAbsolute]
      rw [if_neg (by simp [List.isEmpty_iff, hne])]
      rw [hres]
  · intro s h hval
    obtain ⟨u, hu⟩ := swS_cons s '/' ('/' :: []) h
    have hnh := slash_head_not_http s u hu
    have hne : s ≠ [] := by rw [hu]; simp
    have hres : resolveWithBase s = some ("https:".toList ++ s) := by
      simp only [resolveWithBase]
      rw [if_neg (by rw [hnh]; simp), if_pos h, if_pos hval]
    simp only [toAbsolute]
    rw [if_neg (by simp [List.isEmpty_iff, hne])]
    rw [hres]
  · intro s h h2 hval
    obtain ⟨u, hu⟩ := swS_cons s '/' [] h
    have hnh := slash_head_not_http s u hu
    have hne : s ≠ [] := by rw [hu]; simp
    have hres : resolveWithBase s = some (BASEs ++ s) := by
      simp only [resolveWithBase]
      rw [if_neg (by rw [hnh]; simp), if_neg (by rw [h2]; simp), if_pos h, if_pos hval]
    simp only [toAbsolute]
    rw [if_neg (by simp [List.isEmpty_iff, hne])]
    rw [hres]

/-- C6, witness: `http://` fails to parse and is returned unchanged,
`//cdn.io/a` is resolved scheme-relative to `https:`, `/x` is resolved
against the origin root, and a plain relative value produces some output. -/
theorem toAbsolute_spec_witness :
    toAbsolute (some "http://".toList) = some "http://".toList ∧
    toAbsolute (some "//cdn.io/a".toList) = some ("https:".toList ++ "//cdn.io/a".toList) ∧
    toAbsolute (some "/x".toList) = some (BASEs ++ "/x".toList) ∧
    (∃ r : Str, toAbsolute (some "foo.png".toList) = some r) := by
  obtain ⟨h1, h2, h3, h4, h5, h6⟩ := toAbsolute_spec
  exact ⟨h3 "http://".toList (by decide) (by decide),
    h5 "//cdn.io/a".toList (by decide) (by decide),
    h6 "/x".toList (by decide) (by decide) (by decide),
    h4 "foo.png".toList (by decide)⟩

theorem swS_decomp (s p : Str) (h : swS s p = true) : ∃ v, s = p ++ v := by
  unfold swS at h
  rw [ List.isPrefixOf_iff_prefix] at h
  obtain ⟨v, hv⟩ := h
  exact ⟨v, hv.symm⟩

theorem swS_append_self (p x : Str) : swS (p ++ x) p = true := by
  unfold swS
  rw [ List.isPrefixOf_iff_prefix]
  exact ⟨x, rfl⟩

theorem takeWhile_append_of_all (f : Char → Bool) (p l : Str) (hp : p.all f = true) :
    (p ++ l).takeWhile f = p ++ l.takeWhile f := by
  induction p with
  | nil => simp
  | cons a u ih =>
    rw [List.all_cons, Bool.and_eq_true] at hp
    rw [List.cons_append, List.takeWhile_cons, if_pos hp.1, ih hp.2]
    rfl

theorem all_of_takeWhile (f g : Char → Bool) (l : Str) (h : l.all f = true) :
    (l.takeWhile g).all f = true := by
  rw [List.all_eq_true] at h ⊢
  intro x hx
  exact h x ((List.takeWhile_sublist g).subset hx)

theorem dropWhile_all_nil (f : Char → Bool) (l : Str) (h : l.all f = true) :
    l.dropWhile f = [] := by
  induction l with
  | nil => rfl
  | cons a u ih =>
    rw [List.all_cons, Bool.and_eq_true] at h
    rw [List.dropWhile_cons, if_pos h.1]
    exact ih h.2

theorem trimS_append_fixed (p l : Str) (c : Char) (tp : Str) (hp : p = c :: tp)
    (hc : wsC c = false) (d : Char) (tl : Str) (hl : l.reverse = d :: tl)
    (hd : wsC d = false) : trimS (p ++ l) = p ++ l := by
  apply trimS_of_ends
  · intro c' t' h'
    rw [hp, List.cons_append] at h'
    injection h' with h1 h2
    rw [← h1]
    exact hc
  · intro d' t' h'
    rw [List.reverse_append, hl, List.cons_append] at h'
    injection h' with h1 h2
    rw [← h1]
    exact hd

theorem isValidAbsUrl_all_nws (u : Str) (h : isValidAbsUrl u = true) :
    u.all (fun c => !wsC c) = true := by
  unfold isValidAbsUrl at h
  split at h
  · cases h
  · split at h
    · cases h
    · exact (Bool.and_eq_true_iff.mp h).2

theorem isValidAbsUrl_head (u : Str) (h : isValidAbsUrl u = true) :
    ∃ t, u = 'h' :: t := by
  unfold isValidAbsUrl afterScheme at h
  by_cases h8 : swS u "https://".toList = true
  · exact swS_cons u 'h' "ttps://".toList h8
  · rw [if_neg h8] at h
    by_cases h7 : swS u "http://".toList = true
    · exact swS_cons u 'h' "ttp://".toList h7
    · rw [if_neg h7] at h
      cases h

theorem swS_h_slash (y : Str) : swS ('h' :: y) slashS = false := rfl

theorem swS_h_slashslash (y : Str) : swS ('h' :: y) slash2S = false := rfl

theorem http_append_not_https (x : Str) :
    swS ("http://".toList ++ x) "https://".toList = false := rfl

theorem urlPath_cons (c : Char) (t : Str) (hc : (c != '?') = true) :
    urlPath (c :: t) = c :: t.takeWhile (fun x => x != '?') := by
  unfold urlPath
  rw [List.takeWhile_cons, if_pos hc]

theorem urlQuery_urlPath (u : Str) : urlQuery (urlPath u) = [] := by
  unfold urlQuery urlPath
  exact dropWhile_all_nil _ _ List.all_takeWhile

theorem isValidAbsUrl_path (u : Str) (h : isValidAbsUrl u = true) :
    isValidAbsUrl (urlPath u) = true := by
  have hnws := isValidAbsUrl_all_nws u h
  have hallp : (urlPath u).all (fun c => !wsC c) = true :=
    all_of_takeWhile _ _ u hnws
  unfold isValidAbsUrl afterScheme at h
  by_cases h8 : swS u "https://".toList = true
  · rw [if_pos h8] at h
    obtain ⟨v, hv⟩ := swS_decomp u _ h8
    have hdrop : u.drop 8 = v := by
      rw [hv]
      exact List.drop_left' (by decide)
    rw [hdrop] at h
    match hveq : v with
    | [] =>
      exact absurd (id h : false = true) (by simp)
    | c :: w =>
      have h2 : (hostChar c && u.all fun ch => !wsC ch) = true := h
      have hcc : hostChar c = true := (Bool.and_eq_true_iff.mp h2).1
      have hcq : (c != '?') = true := by
        unfold hostChar at hcc
        exact (Bool.and_eq_true_iff.mp (Bool.and_eq_true_iff.mp hcc).1).2
      have hpath : urlPath u = "https://".toList ++ (c :: w.takeWhile (fun x => x != '?')) := by
        rw [hv]
        unfold urlPath
        rw [takeWhile_append_of_all _ _ _ (by decide), List.takeWhile_cons, if_pos hcq]
      rw [hpath] at hallp ⊢
      unfold isValidAbsUrl afterScheme
      rw [if_pos (swS_append_self _ _), List.drop_left' (by decide)]
      simp only [hcc, hallp]
      rfl
  · rw [if_neg h8] at h
    by_cases h7 : swS u "http://".toList = true
    · rw [if_pos h7] at h
      obtain ⟨v, hv⟩ := swS_decomp u _ h7
      have hdrop : u.drop 7 = v := by
        rw [hv]
        exact List.drop_left' (by decide)
      rw [hdrop] at h
      match hveq : v with
      | [] =>
        exact absurd (id h : false = true) (by simp)
      | c :: w =>
        have h2 : (hostChar c && u.all fun ch => !wsC ch) = true := h
        have hcc : hostChar c = true := (Bool.and_eq_true_iff.mp h2).1
        have hcq : (c != '?') = true := by
          unfold hostChar at hcc
          exact (Bool.and_eq_true_iff.mp (Bool.and_eq_true_iff.mp hcc).1).2
        have hpath : urlPath u = "http://".toList ++ (c :: w.takeWhile (fun x => x != '?')) := by
          rw [hv]
          unfold urlPath
          rw [takeWhile_append_of_all _ _ _ (by decide), List.takeWhile_cons, if_pos hcq]
        rw [hpath] at hallp ⊢
        unfold isValidAbsUrl afterScheme
        rw [if_neg (by rw [http_append_not_https]; simp), if_pos (swS_append_self _ _),
          List.drop_left' (by decide)]
        simp only [hcc, hallp]
        rfl
    · rw [if_neg h7] at h
      cases h

theorem fixCoreRT_fixpoint (v : Str) (htrim : trimS v = v)
    (hsw2 : swS v slash2S = false) (hsw1 : swS v slashS = false)
    (hval : isValidAbsUrl v = false ∨
      (isValidAbsUrl v = true ∧ ¬(80 < (urlQuery v).length))) :
    fixCoreRT v = v := by
  have e1 : (if swS v slash2S = true then httpsCS ++ v else v) = v := by
    rw [hsw2]
    simp
  have e2 : (if swS v slashS = true then BASEs ++ v else v) = v := by
    rw [hsw1]
    simp
  simp only [fixCoreRT, htrim, e1, e2]
  rcases hval with hv | ⟨hv, hq⟩
  · rw [if_neg (by rw [hv]; simp)]
  · rw [if_pos hv, if_neg hq]

theorem fixCoreClass_fixpoint (v : Str) (htrim : trimS v = v)
    (hsw2 : swS v slash2S = false) (hsw1 : swS v slashS = false)
    (hval : isValidAbsUrl v = false ∨
      (isValidAbsUrl v = true ∧ ¬(40 < ((urlQuery v).drop 1).length))) :
    fixCoreClass v = v := by
  have e1 : (if swS v slash2S = true then https2S ++ (v.dropWhile (fun c => c == '/')) else v) = v := by
    rw [hsw2]
    simp
  have e2 : (if swS v slashS = true then BASEs ++ v else v) = v := by
    rw [hsw1]
    simp
  simp only [fixCoreClass, htrim, e1, e2]
  rcases hval with hv | ⟨hv, hq⟩
  · rw [if_neg (by rw [hv]; simp)]
  · rw [if_pos hv, if_neg hq]

theorem valid_output_fixpoint_facts (w : Str) (hvw : isValidAbsUrl w = true) :
    ∃ y, w = 'h' :: y ∧ trimS w = w ∧ swS w slash2S = false ∧
      swS w slashS = false := by
  obtain ⟨y, hy⟩ := isValidAbsUrl_head w hvw
  refine ⟨y, hy, trimS_all_not_ws w (isValidAbsUrl_all_nws w hvw), ?_, ?_⟩
  · rw [hy]
    exact swS_h_slashslash y
  · rw [hy]
    exact swS_h_slash y

theorem bool_eq_false_of_not (b : Bool) (h : ¬ b = true) : b = false := by
  cases b
  · rfl
  · exact absurd rfl h

theorem fixRT_tail (w : Str) (hwne : w ≠ []) (hfixw : trimS w = w)
    (hsw2 : swS w slash2S = false) (hsw1 : swS w slashS = false) :
    fixCoreRT (if isValidAbsUrl w = true then
        (if 80 < (urlQuery w).length then urlPath w else w) else w) =
      (if isValidAbsUrl w = true then
        (if 80 < (urlQuery w).length then urlPath w else w) else w) ∧
    (if isValidAbsUrl w = true then
        (if 80 < (urlQuery w).length then urlPath w else w) else w) ≠ [] := by
  by_cases hv : isValidAbsUrl w = true
  · rw [if_pos hv]
    by_cases hq : 80 < (urlQuery w).length
    · rw [if_pos hq]
      have hvp : isValidAbsUrl (urlPath w) = true := isValidAbsUrl_path w hv
      obtain ⟨y', hy', htr', h2', h1'⟩ := valid_output_fixpoint_facts (urlPath w) hvp
      constructor
      · exact fixCoreRT_fixpoint (urlPath w) htr' h2' h1'
          (Or.inr ⟨hvp, by rw [urlQuery_urlPath]; simp⟩)
      · rw [hy']
        simp
    · rw [if_neg hq]
      obtain ⟨y, hy, htr, h2, h1⟩ := valid_output_fixpoint_facts w hv
      exact ⟨fixCoreRT_fixpoint w htr h2 h1 (Or.inr ⟨hv, hq⟩), hwne⟩
  · rw [if_neg hv]
    exact ⟨fixCoreRT_fixpoint w hfixw hsw2 hsw1
      (Or.inl (bool_eq_false_of_not _ hv)), hwne⟩

theorem fixCoreRT_idem (r : Str) (h : trimS r ≠ []) :
    fixCoreRT (fixCoreRT r) = fixCoreRT r ∧ fixCoreRT r ≠ [] := by
  obtain ⟨c0, t0, hu0⟩ : ∃ c t, trimS r = c :: t := by
    cases htr : trimS r with
    | nil => exact absurd htr h
    | cons c t => exact ⟨c, t, rfl⟩
  have hcws : wsC c0 = false := trimS_head_nws r c0 t0 hu0
  obtain ⟨d0, s0, hrev⟩ : ∃ d s, (trimS r).reverse = d :: s := by
    cases hr : (trimS r).reverse with
    | nil =>
      rw [List.reverse_eq_nil_iff] at hr
      exact absurd hr h
    | cons d s => exact ⟨d, s, rfl⟩
  have hdws : wsC d0 = false := trimS_last_nws r d0 s0 hrev
  have hfix0 : trimS (trimS r) = trimS r := trimS_idem r
  by_cases hA : swS (trimS r) slash2S = true
  · have hh : httpsCS ++ trimS r = 'h' :: ("ttps:".toList ++ trimS r) := rfl
    have hsl1 : swS (httpsCS ++ trimS r) slashS = false := by
      rw [hh]
      exact swS_h_slash _
    have hsl2 : swS (httpsCS ++ trimS r) slash2S = false := by
      rw [hh]
      exact swS_h_slashslash _
    have hwne : (httpsCS ++ trimS r : Str) ≠ [] := by
      rw [hh]
      simp
    have hfixw : trimS (httpsCS ++ trimS r) = httpsCS ++ trimS r :=
      trimS_append_fixed httpsCS (trimS r) 'h' "ttps:".toList rfl (by decide)
        d0 s0 hrev hdws
    have hwform : fixCoreRT r = (if isValidAbsUrl (httpsCS ++ trimS r) = true then
        (if 80 < (urlQuery (httpsCS ++ trimS r)).length then urlPath (httpsCS ++ trimS r)
         else httpsCS ++ trimS r) else httpsCS ++ trimS r) := by
      have hsl1n : ¬ swS (httpsCS ++ trimS r) slashS = true := by
        rw [hsl1]
        simp
      simp only [fixCoreRT]
      rw [if_pos hA, if_neg hsl1n]
    rw [hwform]
    exact fixRT_tail _ hwne hfixw hsl2 hsl1
  · have hA' : swS (trimS r) slash2S = false := bool_eq_false_of_not _ hA
    by_cases hB : swS (trimS r) slashS = true
    · have hh : BASEs ++ trimS r = 'h' :: ("ttps://allnovel.org".toList ++ trimS r) := rfl
      have hsl1 : swS (BASEs ++ trimS r) slashS = false := by
        rw [hh]
        exact swS_h_slash _
      have hsl2 : swS (BASEs ++ trimS r) slash2S = false := by
        rw [hh]
        exact swS_h_slashslash _
      have hwne : (BASEs ++ trimS r : Str) ≠ [] := by
        rw [hh]
        simp
      have hfixw : trimS (BASEs ++ trimS r) = BASEs ++ trimS r :=
        trimS_append_fixed BASEs (trimS r) 'h' "ttps://allnovel.org".toList rfl
          (by decide) d0 s0 hrev hdws
      have hwform : fixCoreRT r = (if isValidAbsUrl (BASEs ++ trimS r) = true then
          (if 80 < (urlQuery (BASEs ++ trimS r)).length then urlPath (BASEs ++ trimS r)
           else BASEs ++ trimS r) else BASEs ++ trimS r) := by
        have hAn : ¬ swS (trimS r) slash2S = true := by
          rw [hA']
          simp
        simp only [fixCoreRT]
        rw [if_neg hAn, if_pos hB]
      rw [hwform]
      exact fixRT_tail _ hwne hfixw hsl2 hsl1
    · have hB' : swS (trimS r) slashS = false := bool_eq_false_of_not _ hB
      have hfixw : trimS (trimS r) = trimS r := hfix0
      have hwform : fixCoreRT r = (if isValidAbsUrl (trimS r) = true then
          (if 80 < (urlQuery (trimS r)).length then urlPath (trimS r)
           else trimS r) else trimS r) := by
        have hAn : ¬ swS (trimS r) slash2S = true := by
          rw [hA']
          simp
        have hBn : ¬ swS (trimS r) slashS = true := by
          rw [hB']
          simp
        simp only [fixCoreRT]
        rw [if_neg hAn, if_neg hBn]
      rw [hwform]
      exact fixRT_tail _ h hfixw hA' hB'

theorem fixClass_tail (w : Str) (hwne : w ≠ []) (hfixw : trimS w = w)
    (hsw2 : swS w slash2S = false) (hsw1 : swS w slashS = false) :
    fixCoreClass (if isValidAbsUrl w = true then
        (if 40 < ((urlQuery w).drop 1).length then urlPath w else w) else w) =
      (if isValidAbsUrl w = true then
        (if 40 < ((urlQuery w).drop 1).length then urlPath w else w) else w) ∧
    (if isValidAbsUrl w = true then
        (if 40 < ((urlQuery w).drop 1).length then urlPath w else w) else w) ≠ [] := by
  by_cases hv : isValidAbsUrl w = true
  · rw [if_pos hv]
    by_cases hq : 40 < ((urlQuery w).drop 1).length
    · rw [if_pos hq]
      have hvp : isValidAbsUrl (urlPath w) = true := isValidAbsUrl_path w hv
      obtain ⟨y', hy', htr', h2', h1'⟩ := valid_output_fixpoint_facts (urlPath w) hvp
      constructor
      · exact fixCoreClass_fixpoint (urlPath w) htr' h2' h1'
          (Or.inr ⟨hvp, by rw [urlQuery_urlPath]; simp⟩)
      · rw [hy']
        simp
    · rw [if_neg hq]
      obtain ⟨y, hy, htr, h2, h1⟩ := valid_output_fixpoint_facts w hv
      exact ⟨fixCoreClass_fixpoint w htr h2 h1 (Or.inr ⟨hv, hq⟩), hwne⟩
  · rw [if_neg hv]
    exact ⟨fixCoreClass_fixpoint w hfixw hsw2 hsw1
      (Or.inl (bool_eq_false_of_not _ hv)), hwne⟩

theorem fixCoreClass_idem (r : Str) (h : trimS r ≠ []) :
    fixCoreClass (fixCoreClass r) = fixCoreClass r ∧ fixCoreClass r ≠ [] := by
  obtain ⟨c0, t0, hu0⟩ : ∃ c t, trimS r = c :: t := by
    cases htr : trimS r with
    | nil => exact absurd htr h
    | cons c t => exact ⟨c, t, rfl⟩
  have hcws : wsC c0 = false := trimS_head_nws r c0 t0 hu0
  obtain ⟨d0, s0, hrev⟩ : ∃ d s, (trimS r).reverse = d :: s := by
    cases hr : (trimS r).reverse with
    | nil =>
      rw [List.reverse_eq_nil_iff] at hr
      exact absurd hr h
    | cons d s => exact ⟨d, s, rfl⟩
  have hdws : wsC d0 = false := trimS_last_nws r d0 s0 hrev
  have hfix0 : trimS (trimS r) = trimS r := trimS_idem r
  by_cases hA : swS (trimS r) slash2S = true
  · have hh : https2S ++ ((trimS r).dropWhile (fun c => c == '/')) =
        'h' :: ("ttps://".toList ++ ((trimS r).dropWhile (fun c => c == '/'))) := rfl
    have hsl1 : swS (https2S ++ ((trimS r).dropWhile (fun c => c == '/'))) slashS = false := by
      rw [hh]
      exact swS_h_slash _
    have hsl2 : swS (https2S ++ ((trimS r).dropWhile (fun c => c == '/'))) slash2S = false := by
      rw [hh]
      exact swS_h_slashslash _
    have hwne : (https2S ++ ((trimS r).dropWhile (fun c => c == '/')) : Str) ≠ [] := by
      rw [hh]
      simp
    have hfixw : trimS (https2S ++ ((trimS r).dropWhile (fun c => c == '/'))) =
        https2S ++ ((trimS r).dropWhile (fun c => c == '/')) := by
      cases hX : (trimS r).dropWhile (fun c => c == '/') with
      | nil =>
        rw [List.append_nil]
        exact trimS_all_not_ws https2S (by decide)
      | cons x xs =>
        have hsuf : (trimS r).takeWhile (fun c => c == '/') ++ (x :: xs) = trimS r := by
          rw [← hX]
          exact List.takeWhile_append_dropWhile _ _
        cases hXr : (x :: xs).reverse with
        | nil => exact absurd hXr (by simp)
        | cons d' tl' =>
          have hrev2 := congrArg List.reverse hsuf
          rw [List.reverse_append, hXr, List.cons_append, hrev] at hrev2
          have hd' : wsC d' = false := by
            injection hrev2 with h1 h2
            rw [h1]
            exact hdws
          exact trimS_append_fixed https2S (x :: xs) 'h' "ttps://".toList rfl
            (by decide) d' tl' hXr hd'
    have hsl1n : ¬ swS (https2S ++ ((trimS r).dropWhile (fun c => c == '/'))) slashS = true := by
      rw [hsl1]
      simp
    have hwform : fixCoreClass r =
        (if isValidAbsUrl (https2S ++ ((trimS r).dropWhile (fun c => c == '/'))) = true then
          (if 40 < ((urlQuery (https2S ++ ((trimS r).dropWhile (fun c => c == '/')))).drop 1).length
           then urlPath (https2S ++ ((trimS r).dropWhile (fun c => c == '/')))
           else https2S ++ ((trimS r).dropWhile (fun c => c == '/')))
         else https2S ++ ((trimS r).dropWhile (fun c => c == '/'))) := by
      simp only [fixCoreClass]
      rw [if_pos hA, if_neg hsl1n]
    rw [hwform]
    exact fixClass_tail _ hwne hfixw hsl2 hsl1
  · have hA' : swS (trimS r) slash2S = false := bool_eq_false_of_not _ hA
    by_cases hB : swS (trimS r) slashS = true
    · have hh : BASEs ++ trimS r = 'h' :: ("ttps://allnovel.org".toList ++ trimS r) := rfl
      have hsl1 : swS (BASEs ++ trimS r) slashS = false := by
        rw [hh]
        exact swS_h_slash _
      have hsl2 : swS (BASEs ++ trimS r) slash2S = false := by
        rw [hh]
        exact swS_h_slashslash _
      have hwne : (BASEs ++ trimS r : Str) ≠ [] := by
        rw [hh]
        simp
      have hfixw : trimS (BASEs ++ trimS r) = BASEs ++ trimS r :=
        trimS_append_fixed BASEs (trimS r) 'h' "ttps://allnovel.org".toList rfl
          (by decide) d0 s0 hrev hdws
      have hwform : fixCoreClass r = (if isValidAbsUrl (BASEs ++ trimS r) = true then
          (if 40 < ((urlQuery (BASEs ++ trimS r)).drop 1).length then urlPath (BASEs ++ trimS r)
           else BASEs ++ trimS r) else BASEs ++ trimS r) := by
        have hAn : ¬ swS (trimS r) slash2S = true := by
          rw [hA']
          simp
        simp only [fixCoreClass]
        rw [if_neg hAn, if_pos hB]
      rw [hwform]
      exact fixClass_tail _ hwne hfixw hsl2 hsl1
    · have hB' : swS (trimS r) slashS = false := bool_eq_false_of_not _ hB
      have hwform : fixCoreClass r = (if isValidAbsUrl (trimS r) = true then
          (if 40 < ((urlQuery (trimS r)).drop 1).length then urlPath (trimS r)
           else trimS r) else trimS r) := by
        have hAn : ¬ swS (trimS r) slash2S = true := by
          rw [hA']
          simp
        have hBn : ¬ swS (trimS r) slashS = true := by
          rw [hB']
          simp
        simp only [fixCoreClass]
        rw [if_neg hAn, if_neg hBn]
      rw [hwform]
      exact fixClass_tail _ h hfix0 hA' hB'

/-- C7, counterexample: `fixImageUrl` is not idempotent on every input: for
the whitespace-only string `"   "` the first application trims to the empty
string and returns it, while the second application hits the falsy-input
check and returns null; both source variants behave the same way. -/
theorem fixImageUrl_whitespace_counterexample :
    fixImageUrl (some "   ".toList) = some [] ∧
    fixImageUrl (fixImageUrl (some "   ".toList)) = none ∧
    fixImageUrl (fixImageUrl (some "   ".toList)) ≠ fixImageUrl (some "   ".toList) ∧
    fixImageUrlClass (fixImageUrlClass (some "   ".toList)) ≠
      fixImageUrlClass (some "   ".toList) := by
  decide

/-- C7 (amended): both variants of `fixImageUrl` are idempotent on null and
on every input whose trimmed value is non-empty (in particular on every
already-normalised URL); the sole exception, forced by the counterexample, is
a non-empty whitespace-only input, which maps first to the empty string and
then to null. -/
theorem fixImageUrl_idempotent_on_trimmed_nonempty (o : Option Str)
    (h : ∀ s, o = some s → trimS s ≠ []) :
    fixImageUrl (fixImageUrl o) = fixImageUrl o ∧
    fixImageUrlClass (fixImageUrlClass o) = fixImageUrlClass o := by
  match o with
  | none => exact ⟨rfl, rfl⟩
  | some r =>
    have htr : trimS r ≠ [] := h r rfl
    have hrne : r ≠ [] := by
      intro he
      subst he
      exact htr rfl
    obtain ⟨hidem, hne⟩ := fixCoreRT_idem r htr
    obtain ⟨hidemC, hneC⟩ := fixCoreClass_idem r htr
    constructor
    · have e1 : fixImageUrl (some r) = some (fixCoreRT r) := by
        simp only [fixImageUrl]
        rw [if_neg (by simp [List.isEmpty_iff, hrne])]
      rw [e1]
      simp only [fixImageUrl]
      rw [if_neg (by simp [List.isEmpty_iff, hne]), hidem, ← e1]
    · have e1 : fixImageUrlClass (some r) = some (fixCoreClass r) := by
        simp only [fixImageUrlClass]
        rw [if_neg (by simp [List.isEmpty_iff, hrne])]
      rw [e1]
      simp only [fixImageUrlClass]
      rw [if_neg (by simp [List.isEmpty_iff, hneC]), hidemC, ← e1]

/-- C7, witness: idempotence evaluated on an already-normalised absolute URL
(both variants). -/
theorem fixImageUrl_idempotent_witness :
    fixImageUrl (fixImageUrl (some "https://a.io/x".toList)) =
      fixImageUrl (some "https://a.io/x".toList) ∧
    fixImageUrlClass (fixImageUrlClass (some "https://a.io/x".toList)) =
      fixImageUrlClass (some "https://a.io/x".toList) := by
  refine fixImageUrl_idempotent_on_trimmed_nonempty (some "https://a.io/x".toList) ?_
  intro s hs
  cases hs
  decide

theorem dedupeAux_sublist (l : List PItem) (seen : List Str) :
    (dedupeAux l seen).Sublist l := by
  induction l generalizing seen with
  | nil => simp [dedupeAux]
  | cons it rest ih =>
    rw [dedupeAux]
    by_cases hs : it.url ∈ seen
    · rw [if_pos hs]
      exact (ih seen).cons it
    · rw [if_neg hs]
      exact (ih (it.url :: seen)).cons₂ it

theorem dedupeAux_urls (l : List PItem) (seen : List Str) :
    ((dedupeAux l seen).map (fun it => it.url)).Nodup ∧
    ∀ y ∈ dedupeAux l seen, y.url ∉ seen := by
  induction l generalizing seen with
  | nil => simp [dedupeAux]
  | cons it rest ih =>
    rw [dedupeAux]
    by_cases hs : it.url ∈ seen
    · rw [if_pos hs]
      exact ih seen
    · rw [if_neg hs]
      obtain ⟨hnodup, havoid⟩ := ih (it.url :: seen)
      refine ⟨?_, ?_⟩
      · rw [List.map_cons, List.nodup_cons]
        refine ⟨?_, hnodup⟩
        intro hmem
        rw [List.mem_map] at hmem
        obtain ⟨y, hy, hyu⟩ := hmem
        exact havoid y hy (by rw [hyu]; simp)
      · intro y hy
        rw [List.mem_cons] at hy
        rcases hy with rfl | hy
        · exact hs
        · intro hmem
          exact havoid y hy (by simp [hmem])

theorem dedupeAux_congr (l : List PItem) (s1 s2 : List Str)
    (h : ∀ u, u ∈ s1 ↔ u ∈ s2) : dedupeAux l s1 = dedupeAux l s2 := by
  induction l generalizing s1 s2 with
  | nil => rfl
  | cons it rest ih =>
    rw [dedupeAux, dedupeAux]
    by_cases hs : it.url ∈ s1
    · rw [if_pos hs, if_pos ((h it.url).mp hs)]
      exact ih s1 s2 h
    · rw [if_neg hs, if_neg (fun hc => hs ((h it.url).mpr hc))]
      rw [ih (it.url :: s1) (it.url :: s2) (by intro u; simp [h u])]

theorem dedupeAux_filter (l : List PItem) (u : Str) (seen : List Str) :
    dedupeAux l (u :: seen) =
      dedupeAux (l.filter (fun z => !(z.url == u))) seen := by
  induction l generalizing seen with
  | nil => rfl
  | cons it rest ih =>
    by_cases hu : it.url = u
    · have hb : (it.url == u) = true := by simp [hu]
      rw [dedupeAux, if_pos (by rw [hu]; simp), List.filter_cons,
        if_neg (by simp [hb])]
      exact ih seen
    · have hb : (!(it.url == u)) = true := by simp [hu]
      rw [List.filter_cons, if_pos (by simp [hb])]
      by_cases hs : it.url ∈ seen
      · rw [dedupeAux, if_pos (by simp [hs]), dedupeAux, if_pos hs]
        exact ih seen
      · rw [dedupeAux, if_neg (by simp [hu, hs]), dedupeAux, if_neg hs]
        congr 1
        rw [dedupeAux_congr rest (it.url :: u :: seen) (u :: it.url :: seen)
          (by intro v; constructor <;> (intro hv; simp at hv ⊢; tauto))]
        exact ih (it.url :: seen)

theorem dedupeAux_coverage (l : List PItem) (seen : List Str) :
    ∀ x ∈ l, x.url ∈ seen ∨ ∃ y ∈ dedupeAux l seen, y.url = x.url := by
  induction l generalizing seen with
  | nil => simp
  | cons it rest ih =>
    intro x hx
    rw [List.mem_cons] at hx
    rw [dedupeAux]
    by_cases hs : it.url ∈ seen
    · rw [if_pos hs]
      rcases hx with rfl | hx
      · exact Or.inl hs
      · exact ih seen x hx
    · rw [if_neg hs]
      rcases hx with rfl | hx
      · exact Or.inr ⟨x, by simp, rfl⟩
      · rcases ih (it.url :: seen) x hx with hmem | ⟨y, hy, hyu⟩
        · rw [List.mem_cons] at hmem
          rcases hmem with heq | hmem
          · exact Or.inr ⟨it, by simp, heq.symm⟩
          · exact Or.inl hmem
        · exact Or.inr ⟨y, by simp [hy], hyu⟩

/-- C8, counterexample: the runtime `parseListFromDoc` primary path performs
no deduplication: a listing document whose first item-container selector
matches the same work twice yields a popular list with two entries sharing
one absolute URL, and the runtime `getPopular` returns it as-is. -/
theorem parseListFromDoc_duplicate_counterexample :
    (getPopularRT [Except.ok dupListDoc]).1.map (fun it => it.url) =
      ["https://allnovel.org/novel/x".toList,
       "https://allnovel.org/novel/x".toList] ∧
    ¬ List.Pairwise (fun a b : PItem => a.url ≠ b.url)
      (getPopularRT [Except.ok dupListDoc]).1 := by
  decide

/-- C8 (amended): the claimed deduplication exists only in the class-variant
`getPopular`: its seen-set pass keeps the first occurrence of each URL,
preserves relative order (the result is a sublist of the input), returns a
list whose URLs are pairwise distinct, and covers every input URL; the
runtime `parseListFromDoc` primary path performs no deduplication and can
return two entries with equal url. -/
theorem dedupe_first_occurrence_spec :
    (∀ l : List PItem, ((dedupeByUrl l).map (fun it => it.url)).Nodup) ∧
    (∀ l : List PItem, (dedupeByUrl l).Sublist l) ∧
    dedupeByUrl ([] : List PItem) = [] ∧
    (∀ (x : PItem) (l : List PItem), dedupeByUrl (x :: l) =
      x :: dedupeByUrl (l.filter (fun z => !(z.url == x.url)))) ∧
    (∀ (l : List PItem) (x : PItem), x ∈ l →
      ∃ y ∈ dedupeByUrl l, y.url = x.url) := by
  refine ⟨fun l => (dedupeAux_urls l []).1, fun l => dedupeAux_sublist l [],
    rfl, ?_, ?_⟩
  · intro x l
    unfold dedupeByUrl
    rw [dedupeAux, if_neg (by simp)]
    rw [dedupeAux_filter l x.url []]
  · intro l x hx
    rcases dedupeAux_coverage l [] x hx with hmem | hex
    · simp at hmem
    · exact hex

/-- C8, witness: the class-variant dedupe evaluated on a concrete three-item
list with a repeated URL — the first occurrence survives and the repeat's URL
is still covered. -/
theorem dedupe_first_occurrence_witness :
    dedupeByUrl [(⟨"u".toList, "A".toList, "u".toList, none, none⟩ : PItem),
        ⟨"v".toList, "B".toList, "v".toList, none, none⟩,
        ⟨"u".toList, "C".toList, "u".toList, none, none⟩] =
      (⟨"u".toList, "A".toList, "u".toList, none, none⟩ : PItem) ::
        dedupeByUrl ([(⟨"v".toList, "B".toList, "v".toList, none, none⟩ : PItem),
          ⟨"u".toList, "C".toList, "u".toList, none, none⟩].filter
            (fun z => !(z.url == "u".toList))) ∧
    ∃ y ∈ dedupeByUrl [(⟨"u".toList, "A".toList, "u".toList, none, none⟩ : PItem),
        ⟨"v".toList, "B".toList, "v".toList, none, none⟩,
        ⟨"u".toList, "C".toList, "u".toList, none, none⟩],
      y.url = (⟨"u".toList, "C".toList, "u".toList, none, none⟩ : PItem).url := by
  obtain ⟨h1, h2, h3, h4, h5⟩ := dedupe_first_occurrence_spec
  exact ⟨h4 _ _, h5 _ _ (by decide)⟩

theorem hasNode_removeNodes_self (p : String → List String → Bool)
    (f : List HNode) : hasNode p (removeNodes p f) = false := by
  induction f using removeNodes.induct p with
  | case1 =>
    rw [removeNodes, hasNode]
  | case2 s rest ih =>
    rw [removeNodes, hasNode]
    exact ih
  | case3 t c a ch rest hp ihrest =>
    rw [removeNodes, if_pos hp]
    exact ihrest
  | case4 t c a ch rest hp ihch ihrest =>
    rw [removeNodes, if_neg hp, hasNode]
    rw [bool_eq_false_of_not _ hp, ihch, ihrest]
    rfl

theorem hasNode_removeNodes_preserve (p q : String → List String → Bool)
    (f : List HNode) (h : hasNode q f = false) :
    hasNode q (removeNodes p f) = false := by
  induction f using removeNodes.induct p with
  | case1 =>
    rw [removeNodes]
    exact h
  | case2 s rest ih =>
    rw [hasNode] at h
    rw [removeNodes, hasNode]
    exact ih h
  | case3 t c a ch rest hp ihrest =>
    rw [hasNode] at h
    simp only [Bool.or_eq_false_iff] at h
    rw [removeNodes, if_pos hp]
    exact ihrest h.2
  | case4 t c a ch rest hp ihch ihrest =>
    rw [hasNode] at h
    simp only [Bool.or_eq_false_iff] at h
    obtain ⟨⟨hq, hch⟩, hrest⟩ := h
    rw [removeNodes, if_neg hp, hasNode]
    rw [hq, ihch hch, ihrest hrest]
    rfl

theorem removeNodes_eq_self (p : String → List String → Bool)
    (f : List HNode) (h : hasNode p f = false) : removeNodes p f = f := by
  induction f using removeNodes.induct p with
  | case1 => rw [removeNodes]
  | case2 s rest ih =>
    rw [hasNode] at h
    rw [removeNodes, ih h]
  | case3 t c a ch rest hp ihrest =>
    rw [hasNode] at h
    simp only [Bool.or_eq_false_iff] at h
    exact absurd h.1.1 (by simp [hp])
  | case4 t c a ch rest hp ihch ihrest =>
    rw [hasNode] at h
    simp only [Bool.or_eq_false_iff] at h
    obtain ⟨⟨hq, hch⟩, hrest⟩ := h
    rw [removeNodes, if_neg hp, ihch hch, ihrest hrest]

theorem hasNode_mono (p r : String → List String → Bool)
    (himp : ∀ t c, p t c = true → r t c = true) (f : List HNode)
    (h : hasNode r f = false) : hasNode p f = false := by
  induction f using hasNode.induct p with
  | case1 => rw [hasNode]
  | case2 s rest ih =>
    rw [hasNode] at h ⊢
    exact ih h
  | case3 t c a ch rest ihch ihrest =>
    rw [hasNode] at h ⊢
    simp only [Bool.or_eq_false_iff] at h
    obtain ⟨⟨hr, hch⟩, hrest⟩ := h
    have hp : p t c = false := by
      cases hb : p t c
      · rfl
      · rw [himp t c hb] at hr
        cases hr
    rw [hp, ihch hch, ihrest hrest]
    rfl

theorem hasNode_stripOnAttrs (p : String → List String → Bool) (f : List HNode) :
    hasNode p (stripOnAttrs f) = hasNode p f := by
  induction f using stripOnAttrs.induct with
  | case1 =>
    rw [stripOnAttrs]
  | case2 s rest ih =>
    rw [stripOnAttrs, hasNode, hasNode, ih]
  | case3 t c a ch rest ihch ihrest =>
    rw [stripOnAttrs, hasNode, hasNode, ihch, ihrest]

theorem hasOnAttr_stripOnAttrs (f : List HNode) :
    hasOnAttr (stripOnAttrs f) = false := by
  induction f using stripOnAttrs.induct with
  | case1 =>
    rw [stripOnAttrs, hasOnAttr]
  | case2 s rest ih =>
    rw [stripOnAttrs, hasOnAttr]
    exact ih
  | case3 t c a ch rest ihch ihrest =>
    rw [stripOnAttrs, hasOnAttr]
    have hattr : ((a.filter (fun pr => !onAttr pr.1)).any (fun pr => onAttr pr.1)) = false := by
      rw [List.any_eq_false]
      intro pr hpr
      rw [List.mem_filter] at hpr
      have := hpr.2
      simp at this
      simp [this]
    rw [hattr, ihch, ihrest]
    rfl

theorem textContent_stripOnAttrs (f : List HNode) :
    textContent (stripOnAttrs f) = textContent f := by
  induction f using stripOnAttrs.induct with
  | case1 => rw [stripOnAttrs]
  | case2 s rest ih =>
    rw [stripOnAttrs, textContent, textContent, ih]
  | case3 t c a ch rest ihch ihrest =>
    rw [stripOnAttrs, textContent, textContent, ihch, ihrest]

theorem pTexts_stripOnAttrs (f : List HNode) :
    pTexts (stripOnAttrs f) = pTexts f := by
  induction f using stripOnAttrs.induct with
  | case1 => rw [stripOnAttrs]
  | case2 s rest ih =>
    rw [stripOnAttrs, pTexts, pTexts, ih]
  | case3 t c a ch rest ihch ihrest =>
    rw [stripOnAttrs, pTexts, pTexts, ihch, ihrest, textContent_stripOnAttrs]

theorem removeNodes_compose (p q : String → List String → Bool) (f : List HNode) :
    removeNodes q (removeNodes p f) =
      removeNodes (fun t c => p t c || q t c) f := by
  induction f using removeNodes.induct p with
  | case1 =>
    rw [removeNodes, removeNodes, removeNodes]
  | case2 s rest ih =>
    rw [removeNodes, removeNodes, removeNodes, ih]
  | case3 t c a ch rest hp ihrest =>
    rw [removeNodes, if_pos hp, removeNodes, if_pos (by simp [hp]), ihrest]
  | case4 t c a ch rest hp ihch ihrest =>
    rw [removeNodes, if_neg hp]
    by_cases hq : q t c = true
    · rw [removeNodes, if_pos hq, removeNodes, if_pos (by simp [hq]), ihrest]
    · rw [removeNodes, if_neg hq, removeNodes,
        if_neg (by simp [bool_eq_false_of_not _ hp, bool_eq_false_of_not _ hq]),
        ihch, ihrest]

/-- C9 (confirmed): for every input fragment, the output of
`cleanHtmlContent` contains no script/style/iframe/noscript element, no
element carrying one of the known ad/share/related/post-navigation classes,
and no attribute whose name begins with `on` (case-insensitively) on any
remaining node; paragraph texts are exactly those of the fragment with the
removed subtrees pruned, and in a fragment containing no removable node at
all every paragraph's text is preserved verbatim. -/
theorem cleanHtmlContent_spec :
    (∀ f, hasNode (fun t _ => badTag t) (cleanHtmlContent f) = false) ∧
    (∀ f, hasNode (fun _ c => adClass c) (cleanHtmlContent f) = false) ∧
    (∀ f, hasOnAttr (cleanHtmlContent f) = false) ∧
    (∀ f, pTexts (cleanHtmlContent f) =
      pTexts (removeNodes (fun t c => badTag t || adClass c) f)) ∧
    (∀ f, hasNode (fun t c => badTag t || adClass c) f = false →
      pTexts (cleanHtmlContent f) = pTexts f) := by
  refine ⟨?_, ?_, ?_, ?_, ?_⟩
  · intro f
    unfold cleanHtmlContent
    rw [hasNode_stripOnAttrs]
    exact hasNode_removeNodes_preserve _ _ _
      (hasNode_removeNodes_self (fun t _ => badTag t) f)
  · intro f
    unfold cleanHtmlContent
    rw [hasNode_stripOnAttrs]
    exact hasNode_removeNodes_self (fun _ c => adClass c) _
  · intro f
    unfold cleanHtmlContent
    exact hasOnAttr_stripOnAttrs _
  · intro f
    unfold cleanHtmlContent
    rw [pTexts_stripOnAttrs, removeNodes_compose]
  · intro f h
    have hbad : hasNode (fun t _ => badTag t) f = false :=
      hasNode_mono _ _ (fun t c hb => by simp [hb]) f h
    have had : hasNode (fun _ c => adClass c) f = false :=
      hasNode_mono _ _ (fun t c hb => by simp [hb]) f h
    unfold cleanHtmlContent
    rw [removeNodes_eq_self _ _ hbad, removeNodes_eq_self _ _ had,
      pTexts_stripOnAttrs]

/-- C9, witness: the sanitizer evaluated on a paragraph carrying an `onclick`
attribute — no removable node is present, the `on*` attribute disappears, and
the paragraph's text survives verbatim. -/
theorem cleanHtmlContent_spec_witness :
    hasNode (fun t _ => badTag t) (cleanHtmlContent sampleFragment) = false ∧
    hasNode (fun _ c => adClass c) (cleanHtmlContent sampleFragment) = false ∧
    hasOnAttr (cleanHtmlContent sampleFragment) = false ∧
    pTexts (cleanHtmlContent sampleFragment) = pTexts sampleFragment := by
  obtain ⟨h1, h2, h3, h4, h5⟩ := cleanHtmlContent_spec
  exact ⟨h1 sampleFragment, h2 sampleFragment, h3 sampleFragment,
    h5 sampleFragment (by simp only [sampleFragment, hasNode]; decide)⟩

/-- C10 (confirmed): `getPageList` always returns an array and never
propagates a per-item error: with no content container (and no
`article`/`.post` fallback) the result is `[]`; with a content node holding
at least one image, the result is exactly the resolved-and-normalised source
of each image that has one (images without a usable source are dropped, not
errors); with a content node holding no images, each paragraph is returned as
a `data:text/html` URL; and with neither images nor paragraphs the result is
the empty array. -/
theorem getPageList_spec :
    (∀ d : CDoc, pickContent d = none → getPageList d = []) ∧
    (∀ (d : CDoc) (node : PNodeC), pickContent d = some node → node.imgs = [] →
      getPageList d = node.paras.map dataUrlOfPara) ∧
    (∀ (d : CDoc) (node : PNodeC), pickContent d = some node → node.imgs ≠ [] →
      getPageList d = node.imgs.filterMap pageOfImg ∧
      ∀ u ∈ getPageList d, ∃ i ∈ node.imgs, pageOfImg i = some u) ∧
    (∀ (d : CDoc) (node : PNodeC), pickContent d = some node → node.imgs = [] →
      node.paras = [] → getPageList d = []) := by
  have hmain : ∀ (d : CDoc) (node : PNodeC), pickContent d = some node →
      getPageList d = (if node.imgs.isEmpty then node.paras.map dataUrlOfPara
        else node.imgs.filterMap pageOfImg) := by
    intro d node hpick
    simp only [getPageList, hpick]
  refine ⟨?_, ?_, ?_, ?_⟩
  · intro d h
    simp only [getPageList, h]
  · intro d node hpick him
    rw [hmain d node hpick, if_pos (by simp [List.isEmpty_iff, him])]
  · intro d node hpick him
    have he : getPageList d = node.imgs.filterMap pageOfImg := by
      rw [hmain d node hpick, if_neg (by simp [List.isEmpty_iff, him])]
    refine ⟨he, ?_⟩
    intro u hu
    rw [he] at hu
    rw [List.mem_filterMap] at hu
    obtain ⟨i, hi, hiu⟩ := hu
    exact ⟨i, hi, hiu⟩
  · intro d node hpick him hpar
    rw [hmain d node hpick, if_pos (by simp [List.isEmpty_iff, him]), hpar]
    rfl

/-- C10, witness: a chapter document with one image yields exactly that
image's resolved and normalised source, and a document with no content node
yields the empty array. -/
theorem getPageList_spec_witness :
    getPageList samplePageDoc =
      ([⟨some "/img/1.jpg".toList, none, none⟩] : List LImg).filterMap pageOfImg ∧
    getPageList (⟨[], none, none⟩ : CDoc) = [] := by
  obtain ⟨h1, h2, h3, h4⟩ := getPageList_spec
  refine ⟨?_, ?_⟩
  · exact (h3 samplePageDoc
      ⟨"body text".toList, [⟨some "/img/1.jpg".toList, none, none⟩], []⟩
      (by decide) (by decide)).1
  · exact h1 ⟨[], none, none⟩ (by decide)
